import Mathlib

/-!
# A verification development for `NVec::Vector<T>` (`src/src/vec.h`)

The container is embedded shallowly.  A `Vector T` value is the triple of
private members `Size_`, `Capacity_`, `buffer`.  The heap block behind
`buffer` is modelled by its list of slots: `none` is `nullptr`, and
`some slots` is a block obtained from `new T[slots.length]`.  Every access
`buffer[i]` is checked against that block: an access outside it (or through
`nullptr`) is undefined behaviour in C++ and is reported here as
`Fault.InvalidAccess`.  A failed `assert` is reported by the fault that
carries its message.

Conventions.
* `uint32_t` members and arguments are natural numbers; arithmetic that can
  wrap is written with an explicit `% 2 ^ 32`.
* `new T[n]` default-initialises its `n` slots: a slot of a class type is
  default-constructed, a slot of `int` is left unwritten and holds whatever
  the memory held.  What a fresh slot holds is `default` of the instance
  `Inhabited T`; it is a parameter of a run, `slotsHolding held` names the
  run in which it is `held`, and a result about unwritten slots is stated
  for every `held`.
* Assignment between two values of the element type `T` (`a = b`,
  `a = std::move(b)`) stores the value of `b`; this is `valueAssign`.
  Assignment from another type `V` is the element type's own
  `operator=(const V&)`, a parameter `assign : T → V → T` taking the current
  slot value and the assigned value.
-/

set_option autoImplicit false

namespace NVec

/-- The ways a call stops instead of returning. -/
inductive Fault where
  /-- The failure of `assert(... && "Out of bounds")`. -/
  | OutOfBounds
  /-- The failure of `assert(Size_ > 0 && "Vector is empty")`. -/
  | VectorIsEmpty
  /-- A read or write `buffer[i]` outside the allocated block, or through `nullptr`. -/
  | InvalidAccess
  /-- A call `std::bit_ceil(x)` whose result does not fit `uint32_t`. -/
  | BitCeilOverflow
  deriving DecidableEq, Repr

/-- The private members of `Vector<T>` (`vec.h`, lines 143-146). -/
structure Vector (T : Type) where
  Size_ : Nat
  Capacity_ : Nat
  buffer : Option (List T)
  deriving DecidableEq, Repr

/-! ## `NDetails` -/

/-- The doubling search behind `std::bit_ceil`: starting from the power of two
`p`, double until `x ≤ p`, at most `fuel` times. -/
def bitCeilFrom : Nat → Nat → Nat → Nat
  | 0, p, _ => p
  | fuel + 1, p, x => if x ≤ p then p else bitCeilFrom fuel (2 * p) x

/-- The function `std::bit_ceil` of `<bit>` at type `uint32_t`: the smallest
power of two that is not smaller than `x`; the behaviour is undefined when that
power of two is not representable, that is when `x > 2 ^ 31`. -/
def bit_ceil (x : Nat) : Except Fault Nat :=
  if x ≤ 2 ^ 31 then .ok (bitCeilFrom 31 1 x) else .error .BitCeilOverflow

/-- The function `NDetails::NextPowerOfTwo` (`vec.h`, lines 37-39). -/
def NextPowerOfTwo (x : Nat) : Except Fault Nat :=
  bit_ceil x

/-! ## Heap primitives -/

/-- The block made by `new T[n]`: `n` default-initialised slots.  A slot of a
class type holds its default-constructed value; a slot of `int` is not
written and holds whatever the memory held.  Either way the value is
`default` of the instance `Inhabited T`, which is a parameter of a run and
not a value fixed by the element type. -/
def newArray {T : Type} [Inhabited T] (n : Nat) : List T :=
  List.replicate n default

/-- The instance of a run in which a slot of a fresh block holds `held`
before it is first written. -/
def slotsHolding {T : Type} (held : T) : Inhabited T :=
  ⟨held⟩

/-- Assignment between two values of the element type. -/
def valueAssign {T : Type} (_cur : T) (value : T) : T :=
  value

/-- The read `buffer[i]`. -/
def readAt {T : Type} (buffer : Option (List T)) (i : Nat) : Except Fault T :=
  match buffer with
  | none => .error .InvalidAccess
  | some slots =>
    match slots[i]? with
    | some x => .ok x
    | none => .error .InvalidAccess

/-- The assignment `buffer[i] = value`. -/
def assignAt {T V : Type} (assign : T → V → T) (buffer : Option (List T)) (i : Nat)
    (value : V) : Except Fault (Option (List T)) :=
  match buffer with
  | none => .error .InvalidAccess
  | some slots =>
    match slots[i]? with
    | some cur => .ok (some (slots.set i (assign cur value)))
    | none => .error .InvalidAccess

/-- The loop `for (i = start; ...; ++i) body`, run `n` times. -/
def forUp {σ : Type} (body : Nat → σ → Except Fault σ) : Nat → Nat → σ → Except Fault σ
  | 0, _, s => .ok s
  | n + 1, i, s => body i s >>= forUp body n (i + 1)

/-- The loop `for (i = start; ...; --i) body`, run `n` times. -/
def forDown {σ : Type} (body : Nat → σ → Except Fault σ) : Nat → Nat → σ → Except Fault σ
  | 0, _, s => .ok s
  | n + 1, i, s => body i s >>= forDown body n (i - 1)

/-- The range-for of the initializer-list constructor (`vec.h`, lines 217-220):
`buffer[i++] = value` for each `value` of the list, `i` a `uint32_t`. -/
def assignEach {T V : Type} (assign : T → V → T) :
    List V → Nat → Option (List T) → Except Fault (Option (List T))
  | [], _, b => .ok b
  | value :: rest, i, b => assignAt assign b i value >>= assignEach assign rest ((i + 1) % 2 ^ 32)

/-- The body `buffer[i] = other.buffer[i]` of the element-wise copy loops. -/
def copySlot {T V : Type} (assign : T → V → T) (source : Option (List V)) (i : Nat)
    (b : Option (List T)) : Except Fault (Option (List T)) :=
  readAt source i >>= assignAt assign b i

namespace Vector

variable {T V : Type}

/-! ## Constructors -/

/-- The constructor `Vector()` (`vec.h`, lines 150-157). -/
def Default : Vector T :=
  { Size_ := 0, Capacity_ := 0, buffer := none }

/-- The constructor `Vector(uint32_t size)` (`vec.h`, lines 159-166). -/
def Sized [Inhabited T] (size : Nat) : Except Fault (Vector T) := do
  let capacity ← (if 0 = size then pure 0 else NextPowerOfTwo size)
  pure { Size_ := size, Capacity_ := capacity,
         buffer := if 0 = size then none else some (newArray size) }

/-- The constructor `Vector(uint32_t size, const V& value)` (`vec.h`, lines 168-180). -/
def Fill [Inhabited T] (assign : T → V → T) (size : Nat) (value : V) :
    Except Fault (Vector T) := do
  let capacity ← (if 0 = size then pure 0 else NextPowerOfTwo size)
  let fresh : Option (List T) := if 0 = size then none else some (newArray size)
  let filled ← forUp (fun i b => assignAt assign b i value) size 0 fresh
  pure { Size_ := size, Capacity_ := capacity, buffer := filled }

/-- The constructor `Vector(const Vector<V>& other)` (`vec.h`, lines 182-194). -/
def CopyFrom [Inhabited T] (assign : T → V → T) (other : Vector V) :
    Except Fault (Vector T) := do
  let fresh : Option (List T) := if 0 = other.Size_ then none else some (newArray other.Size_)
  let copied ← forUp (copySlot assign other.buffer) other.Size_ 0 fresh
  pure { Size_ := other.Size_, Capacity_ := other.Capacity_, buffer := copied }

/-- The constructor `Vector(const Vector& other)` (`vec.h`, lines 196-206); its
body is that of the converting copy constructor, with same-type assignment. -/
def Copy [Inhabited T] (other : Vector T) : Except Fault (Vector T) := do
  let fresh : Option (List T) := if 0 = other.Size_ then none else some (newArray other.Size_)
  let copied ← forUp (copySlot valueAssign other.buffer) other.Size_ 0 fresh
  pure { Size_ := other.Size_, Capacity_ := other.Capacity_, buffer := copied }

/-- The constructor `Vector(std::initializer_list<V> other)` (`vec.h`, lines 208-221). -/
def InitList [Inhabited T] (assign : T → V → T) (other : List V) :
    Except Fault (Vector T) := do
  let size := other.length % 2 ^ 32
  let capacity ← (if 0 = other.length then pure 0
    else NextPowerOfTwo (other.length % 2 ^ 32))
  let fresh : Option (List T) := if 0 = size then none else some (newArray size)
  let filled ← assignEach assign other 0 fresh
  pure { Size_ := size, Capacity_ := capacity, buffer := filled }

/-- The member `Clear` (`vec.h`, lines 514-521): `Size_ = 0`, the block is
released and `buffer` becomes `nullptr`; `Capacity_` is not written. -/
def Clear (self : Vector T) : Vector T :=
  { Size_ := 0, Capacity_ := self.Capacity_, buffer := none }

/-- The constructor `Vector(Vector<V>&& other)` (`vec.h`, lines 223-236): the
new vector and the state `other` is left in. -/
def MoveFrom [Inhabited T] (assign : T → V → T) (other : Vector V) :
    Except Fault (Vector T × Vector V) := do
  let fresh : Option (List T) := if 0 = other.Size_ then none else some (newArray other.Size_)
  let moved ← forUp (copySlot assign other.buffer) other.Size_ 0 fresh
  pure ({ Size_ := other.Size_, Capacity_ := other.Capacity_, buffer := moved }, other.Clear)

/-- The constructor `Vector(Vector<T>&& other)` (`vec.h`, lines 238-248): the
new vector and the state `other` is left in. -/
def Move (other : Vector T) : Vector T × Vector T :=
  ({ Size_ := other.Size_, Capacity_ := other.Capacity_, buffer := other.buffer },
   { Size_ := 0, Capacity_ := 0, buffer := none })

/-! ## Assignment operators -/

/-- The operator `operator=(const Vector<V>& other)` (`vec.h`, lines 250-264). -/
def CopyAssignFrom [Inhabited T] (assign : T → V → T) (self : Vector T) (other : Vector V) :
    Except Fault (Vector T) := do
  let cleared := self.Clear
  let fresh : Option (List T) := some (newArray other.Size_)
  let copied ← forUp (copySlot assign other.buffer) other.Size_ 0 fresh
  pure { cleared with Size_ := other.Size_, Capacity_ := other.Capacity_, buffer := copied }

/-- The operator `operator=(const Vector& other)` (`vec.h`, lines 266-280);
`sameInstance` is the outcome of the test `this != &other` negated, and then
`other` is `self`. -/
def CopyAssign [Inhabited T] (sameInstance : Bool) (self other : Vector T) :
    Except Fault (Vector T) :=
  if sameInstance then pure self
  else do
    let cleared := self.Clear
    let fresh : Option (List T) := some (newArray other.Size_)
    let copied ← forUp (copySlot valueAssign other.buffer) other.Size_ 0 fresh
    pure { cleared with Size_ := other.Size_, Capacity_ := other.Capacity_, buffer := copied }

/-- The operator `operator=(Vector<V>&& other)` (`vec.h`, lines 282-297): the
assigned vector and the state `other` is left in. -/
def MoveAssignFrom [Inhabited T] (assign : T → V → T) (self : Vector T) (other : Vector V) :
    Except Fault (Vector T × Vector V) := do
  let cleared := self.Clear
  let fresh : Option (List T) := some (newArray other.Size_)
  let moved ← forUp (copySlot assign other.buffer) other.Size_ 0 fresh
  pure ({ cleared with Size_ := other.Size_, Capacity_ := other.Capacity_, buffer := moved },
        other.Clear)

/-- The operator `operator=(Vector<T>&& other)` (`vec.h`, lines 299-312): the
assigned vector and the state `other` is left in; with `sameInstance` both are
the one untouched object. -/
def MoveAssign (sameInstance : Bool) (self other : Vector T) : Vector T × Vector T :=
  if sameInstance then (self, self)
  else
    let cleared := self.Clear
    ({ cleared with Size_ := other.Size_, Capacity_ := other.Capacity_, buffer := other.buffer },
     ({ other with buffer := none } : Vector T).Clear)

/-! ## Capacity -/

/-- The member `Size` (`vec.h`, lines 314-319). -/
def Size (self : Vector T) : Nat :=
  self.Size_

/-- The member `Capacity` (`vec.h`, lines 321-326). -/
def Capacity (self : Vector T) : Nat :=
  self.Capacity_

/-- The member `Empty` (`vec.h`, lines 328-333). -/
def Empty (self : Vector T) : Bool :=
  0 == self.Size_

/-- The member `Reserve` (`vec.h`, lines 335-353). -/
def Reserve [Inhabited T] (self : Vector T) (newCapacity : Nat) : Except Fault (Vector T) :=
  if newCapacity > self.Capacity_ then do
    let newCapacity ← NextPowerOfTwo newCapacity
    let newBuffer : Option (List T) := some (newArray newCapacity)
    let newBuffer ← forUp (copySlot valueAssign self.buffer) self.Size_ 0 newBuffer
    pure { self with buffer := newBuffer, Capacity_ := newCapacity }
  else pure self

/-- The member `Resize` (`vec.h`, lines 355-363). -/
def Resize [Inhabited T] (self : Vector T) (newSize : Nat) : Except Fault (Vector T) := do
  let grown ← (if newSize > self.Capacity_ then NextPowerOfTwo newSize >>= self.Reserve
    else pure self)
  pure { grown with Size_ := newSize }

/-- The private member `ReserveIfNeeded` (`vec.h`, lines 556-563). -/
def ReserveIfNeeded [Inhabited T] (self : Vector T) : Except Fault (Vector T) :=
  if self.Size_ = self.Capacity_ then
    NextPowerOfTwo ((self.Size_ + 1) % 2 ^ 32) >>= self.Reserve
  else pure self

/-! ## Element mutation -/

/-- The members `PushBack(const V&)` and `PushBack(V&&)` (`vec.h`, lines 365-383). -/
def PushBack [Inhabited T] (assign : T → V → T) (self : Vector T) (value : V) :
    Except Fault (Vector T) := do
  let ready ← self.ReserveIfNeeded
  let written ← assignAt assign ready.buffer ready.Size_ value
  pure { ready with buffer := written, Size_ := (ready.Size_ + 1) % 2 ^ 32 }

/-- The member `PopBack` (`vec.h`, lines 385-391). -/
def PopBack (self : Vector T) : Except Fault (Vector T) :=
  if self.Size_ > 0 then pure { self with Size_ := self.Size_ - 1 }
  else .error .VectorIsEmpty

/-- The member `EmplaceBack` (`vec.h`, lines 393-400); `made` is the temporary
`T(std::forward<Args>(args)...)`. -/
def EmplaceBack [Inhabited T] (self : Vector T) (made : T) : Except Fault (Vector T) := do
  let ready ← self.ReserveIfNeeded
  let written ← assignAt valueAssign ready.buffer ready.Size_ made
  pure { ready with buffer := written, Size_ := (ready.Size_ + 1) % 2 ^ 32 }

/-- The member `Swap` (`vec.h`, lines 402-409): the states of `*this` and of
`other` after the call. -/
def Swap (self other : Vector T) : Vector T × Vector T :=
  ({ Size_ := other.Size_, Capacity_ := other.Capacity_, buffer := other.buffer },
   { Size_ := self.Size_, Capacity_ := self.Capacity_, buffer := self.buffer })

/-- The body `buffer[i] = buffer[i - 1]` of the loop of `Insert`; the counter is
an `int`, so a value from `2 ^ 31` on is a negative subscript. -/
def shiftRightSlot (i : Nat) (b : Option (List T)) : Except Fault (Option (List T)) :=
  if i < 2 ^ 31 then readAt b (i - 1) >>= assignAt valueAssign b i
  else .error .InvalidAccess

/-- The member `Insert` (`vec.h`, lines 411-425). -/
def Insert [Inhabited T] (assign : T → V → T) (self : Vector T) (index : Nat) (value : V) :
    Except Fault (Vector T) :=
  if index ≤ self.Size_ then do
    let ready ← self.ReserveIfNeeded
    let shifted ← forDown shiftRightSlot (ready.Size_ - index) ready.Size_ ready.buffer
    let written ← assignAt assign shifted index value
    pure { ready with buffer := written, Size_ := (ready.Size_ + 1) % 2 ^ 32 }
  else .error .OutOfBounds

/-- The body `buffer[i] = buffer[i + 1]` of the loop of `Erase`. -/
def shiftLeftSlot (i : Nat) (b : Option (List T)) : Except Fault (Option (List T)) :=
  readAt b (i + 1) >>= assignAt valueAssign b i

/-- The member `Erase` (`vec.h`, lines 427-436). -/
def Erase (self : Vector T) (index : Nat) : Except Fault (Vector T) :=
  if index < self.Size_ then do
    let shifted ← forUp shiftLeftSlot (self.Size_ - 1 - index) index self.buffer
    pure { self with buffer := shifted, Size_ := self.Size_ - 1 }
  else .error .OutOfBounds

/-! ## Access -/

/-- The operator `operator[]` read as a value (`vec.h`, lines 438-452). -/
def Subscript (self : Vector T) (index : Nat) : Except Fault T :=
  if index < self.Size_ then readAt self.buffer index
  else .error .OutOfBounds

/-- An assignment `v[index] = value` through the reference that the mutable
`operator[]` returns (`vec.h`, lines 438-444). -/
def SubscriptAssign (assign : T → V → T) (self : Vector T) (index : Nat) (value : V) :
    Except Fault (Vector T) :=
  if index < self.Size_ then do
    let written ← assignAt assign self.buffer index value
    pure { self with buffer := written }
  else .error .OutOfBounds

/-- An assignment `*(v.Begin() + offset) = value` through the pointer that
`Begin` returns (`vec.h`, lines 454-466); `End` is `Begin() + Size_`. -/
def BeginAssign (assign : T → V → T) (self : Vector T) (offset : Nat) (value : V) :
    Except Fault (Vector T) := do
  let written ← assignAt assign self.buffer offset value
  pure { self with buffer := written }

/-- The member `Front` read as a value (`vec.h`, lines 482-496). -/
def Front (self : Vector T) : Except Fault T :=
  if self.Size_ > 0 then readAt self.buffer 0
  else .error .VectorIsEmpty

/-- The member `Back` read as a value (`vec.h`, lines 498-512). -/
def Back (self : Vector T) : Except Fault T :=
  if self.Size_ > 0 then readAt self.buffer (self.Size_ - 1)
  else .error .VectorIsEmpty

/-! ## Comparison -/

/-- The loop of `operator==` (`vec.h`, lines 532-537): `n` more rounds from
index `i`; `eq` is the element types' `operator==`. -/
def equalFrom (eq : T → V → Bool) (self : Vector T) (other : Vector V) :
    Nat → Nat → Except Fault Bool
  | 0, _ => .ok true
  | n + 1, i => do
    let mine ← readAt self.buffer i
    let theirs ← other.Subscript i
    if !(eq mine theirs) then pure false else equalFrom eq self other n (i + 1)

/-- The operator `operator==` (`vec.h`, lines 523-538). -/
def Equal (eq : T → V → Bool) (self : Vector T) (other : Vector V) : Except Fault Bool :=
  if self.Size_ ≠ other.Size_ then pure false
  else equalFrom eq self other self.Size_ 0

/-- The operator `operator!=` (`vec.h`, lines 540-547). -/
def NotEqual (eq : T → V → Bool) (self : Vector T) (other : Vector V) : Except Fault Bool := do
  let same ← self.Equal eq other
  pure (!same)

/-! ## Observations used by the statements -/

/-- The sequence a vector holds: the values at the indices `0 .. Size_ - 1`,
when the block behind `buffer` has all those slots. -/
def contents (self : Vector T) : Option (List T) :=
  match self.buffer with
  | none => if self.Size_ = 0 then some [] else none
  | some slots => if self.Size_ ≤ slots.length then some (slots.take self.Size_) else none

/-- The number of slots of the block behind `buffer`; `none` for `nullptr`. -/
def slotCount (self : Vector T) : Option Nat :=
  self.buffer.map List.length

/-- A run of calls `PushBack(x)` for the values of a list, in order. -/
def PushBackAll [Inhabited T] : List T → Vector T → Except Fault (Vector T)
  | [], self => .ok self
  | x :: rest, self => self.PushBack valueAssign x >>= PushBackAll rest

end Vector

/-- The number `c` is the smallest power of two that is at least `n`. -/
def SmallestPowerOfTwoGE (c n : Nat) : Prop :=
  (∃ k, c = 2 ^ k) ∧ n ≤ c ∧ ∀ j, n ≤ 2 ^ j → c ≤ 2 ^ j

/-- The states a vector can be in: those a constructor returns and those a
public operation that returns leaves behind, for every element type at once
(the converting constructors and assignments read a vector of another element
type).  A call that stops with a fault leaves no state.  The rule
`subscriptAssign` stands for every assignment through a reference returned by
`operator[]`, `Front` or `Back`, the rule `beginAssign` for every assignment
through a pointer obtained from `Begin` or `End`; `Size`, `Capacity`, `Empty`
and the comparisons are `const` and change no state. -/
inductive Reachable : {T : Type} → [Inhabited T] → Vector T → Prop
  | default {T : Type} [Inhabited T] : Reachable (Vector.Default : Vector T)
  | sized {T : Type} [Inhabited T] (size : Nat) (v : Vector T) :
      Vector.Sized size = .ok v → Reachable v
  | fill {T V : Type} [Inhabited T] (assign : T → V → T) (size : Nat) (value : V)
      (v : Vector T) : Vector.Fill assign size value = .ok v → Reachable v
  | copyFrom {T V : Type} [Inhabited T] [Inhabited V] (assign : T → V → T) (other : Vector V)
      (v : Vector T) : Reachable other → Vector.CopyFrom assign other = .ok v → Reachable v
  | copy {T : Type} [Inhabited T] (other v : Vector T) :
      Reachable other → Vector.Copy other = .ok v → Reachable v
  | initList {T V : Type} [Inhabited T] (assign : T → V → T) (other : List V) (v : Vector T) :
      Vector.InitList assign other = .ok v → Reachable v
  | moveFromTarget {T V : Type} [Inhabited T] [Inhabited V] (assign : T → V → T)
      (other : Vector V) (r : Vector T × Vector V) :
      Reachable other → Vector.MoveFrom assign other = .ok r → Reachable r.1
  | moveFromSource {T V : Type} [Inhabited T] [Inhabited V] (assign : T → V → T)
      (other : Vector V) (r : Vector T × Vector V) :
      Reachable other → Vector.MoveFrom assign other = .ok r → Reachable r.2
  | moveTarget {T : Type} [Inhabited T] (other : Vector T) :
      Reachable other → Reachable (Vector.Move other).1
  | moveSource {T : Type} [Inhabited T] (other : Vector T) :
      Reachable other → Reachable (Vector.Move other).2
  | copyAssignFrom {T V : Type} [Inhabited T] [Inhabited V] (assign : T → V → T)
      (self : Vector T) (other : Vector V) (v : Vector T) :
      Reachable self → Reachable other → Vector.CopyAssignFrom assign self other = .ok v →
      Reachable v
  | copyAssign {T : Type} [Inhabited T] (self other v : Vector T) :
      Reachable self → Reachable other → Vector.CopyAssign false self other = .ok v →
      Reachable v
  | copyAssignSelf {T : Type} [Inhabited T] (self v : Vector T) :
      Reachable self → Vector.CopyAssign true self self = .ok v → Reachable v
  | moveAssignFromTarget {T V : Type} [Inhabited T] [Inhabited V] (assign : T → V → T)
      (self : Vector T) (other : Vector V) (r : Vector T × Vector V) :
      Reachable self → Reachable other → Vector.MoveAssignFrom assign self other = .ok r →
      Reachable r.1
  | moveAssignFromSource {T V : Type} [Inhabited T] [Inhabited V] (assign : T → V → T)
      (self : Vector T) (other : Vector V) (r : Vector T × Vector V) :
      Reachable self → Reachable other → Vector.MoveAssignFrom assign self other = .ok r →
      Reachable r.2
  | moveAssignTarget {T : Type} [Inhabited T] (self other : Vector T) :
      Reachable self → Reachable other → Reachable (Vector.MoveAssign false self other).1
  | moveAssignSource {T : Type} [Inhabited T] (self other : Vector T) :
      Reachable self → Reachable other → Reachable (Vector.MoveAssign false self other).2
  | moveAssignSelf {T : Type} [Inhabited T] (self : Vector T) :
      Reachable self → Reachable (Vector.MoveAssign true self self).1
  | clear {T : Type} [Inhabited T] (self : Vector T) :
      Reachable self → Reachable self.Clear
  | reserve {T : Type} [Inhabited T] (self : Vector T) (newCapacity : Nat) (v : Vector T) :
      Reachable self → self.Reserve newCapacity = .ok v → Reachable v
  | resize {T : Type} [Inhabited T] (self : Vector T) (newSize : Nat) (v : Vector T) :
      Reachable self → self.Resize newSize = .ok v → Reachable v
  | pushBack {T V : Type} [Inhabited T] (assign : T → V → T) (self : Vector T) (value : V)
      (v : Vector T) : Reachable self → self.PushBack assign value = .ok v → Reachable v
  | popBack {T : Type} [Inhabited T] (self v : Vector T) :
      Reachable self → self.PopBack = .ok v → Reachable v
  | emplaceBack {T : Type} [Inhabited T] (self : Vector T) (made : T) (v : Vector T) :
      Reachable self → self.EmplaceBack made = .ok v → Reachable v
  | swapSelf {T : Type} [Inhabited T] (self other : Vector T) :
      Reachable self → Reachable other → Reachable (self.Swap other).1
  | swapOther {T : Type} [Inhabited T] (self other : Vector T) :
      Reachable self → Reachable other → Reachable (self.Swap other).2
  | insert {T V : Type} [Inhabited T] (assign : T → V → T) (self : Vector T) (index : Nat)
      (value : V) (v : Vector T) :
      Reachable self → self.Insert assign index value = .ok v → Reachable v
  | erase {T : Type} [Inhabited T] (self : Vector T) (index : Nat) (v : Vector T) :
      Reachable self → self.Erase index = .ok v → Reachable v
  | subscriptAssign {T V : Type} [Inhabited T] (assign : T → V → T) (self : Vector T)
      (index : Nat) (value : V) (v : Vector T) :
      Reachable self → self.SubscriptAssign assign index value = .ok v → Reachable v
  | beginAssign {T V : Type} [Inhabited T] (assign : T → V → T) (self : Vector T)
      (offset : Nat) (value : V) (v : Vector T) :
      Reachable self → self.BeginAssign assign offset value = .ok v → Reachable v

/-- The block behind `buffer` has exactly `Capacity_` slots, `nullptr` standing
for a block without slots. -/
def Vector.Exact {T : Type} (self : Vector T) : Prop :=
  self.slotCount.getD 0 = self.Capacity_

/-- The property that the buffer is unallocated when `Capacity()` is zero and
holds exactly `Capacity()` slots otherwise. -/
def Vector.BufferMatchesCapacity {T : Type} (self : Vector T) : Prop :=
  (self.Capacity_ = 0 → self.buffer = none) ∧
    (0 < self.Capacity_ → self.slotCount = some self.Capacity_)

instance Vector.decidableExact {T : Type} (self : Vector T) : Decidable self.Exact :=
  inferInstanceAs (Decidable (self.slotCount.getD 0 = self.Capacity_))

instance Vector.decidableBufferMatchesCapacity {T : Type} [DecidableEq T] (self : Vector T) :
    Decidable self.BufferMatchesCapacity :=
  inferInstanceAs (Decidable ((self.Capacity_ = 0 → self.buffer = none) ∧
    (0 < self.Capacity_ → self.slotCount = some self.Capacity_)))

/-- The state of a vector that received the values `pushed` through `PushBack`
and nothing else since its default construction. -/
def Vector.HoldsPushed {T : Type} (self : Vector T) (pushed : List T) : Prop :=
  self.Exact ∧ self.contents = some pushed ∧
    (pushed.length = 0 → self.Capacity_ = 0) ∧
    (0 < pushed.length → SmallestPowerOfTwoGE self.Capacity_ pushed.length)

/-! ## Sequences of calls on one vector -/

/-- A call of a member that changes the vector it is called on, takes no other
vector and is not `Clear`; values of type `V` are assigned by the element type's
`operator=`. -/
inductive Call (T V : Type) where
  | Reserve (newCapacity : Nat)
  | Resize (newSize : Nat)
  | PushBack (value : V)
  | EmplaceBack (made : T)
  | PopBack
  | Insert (index : Nat) (value : V)
  | Erase (index : Nat)
  | SubscriptAssign (index : Nat) (value : V)
  | BeginAssign (offset : Nat) (value : V)

/-- The effect of a call on the vector it is made on. -/
def Call.run {T V : Type} [Inhabited T] (assign : T → V → T) :
    Call T V → Vector T → Except Fault (Vector T)
  | .Reserve newCapacity, v => v.Reserve newCapacity
  | .Resize newSize, v => v.Resize newSize
  | .PushBack value, v => v.PushBack assign value
  | .EmplaceBack made, v => v.EmplaceBack made
  | .PopBack, v => v.PopBack
  | .Insert index value, v => v.Insert assign index value
  | .Erase index, v => v.Erase index
  | .SubscriptAssign index value, v => v.SubscriptAssign assign index value
  | .BeginAssign offset value, v => v.BeginAssign assign offset value

/-- The capacity a call asks for by its argument: the argument of `Reserve`, and
zero for every other call. -/
def Call.reserved {T V : Type} : Call T V → Nat
  | .Reserve newCapacity => newCapacity
  | _ => 0

/-- A sequence of calls run in order from the vector `v`; `peak` is the largest
number among the sizes the vector had so far and the arguments passed to
`Reserve` so far.  The result is the last vector with the last `peak`. -/
def runCalls {T V : Type} [Inhabited T] (assign : T → V → T) :
    List (Call T V) → Vector T → Nat → Except Fault (Vector T × Nat)
  | [], v, peak => .ok (v, peak)
  | c :: rest, v, peak =>
    c.run assign v >>= fun w => runCalls assign rest w (max (max peak w.Size_) c.reserved)

/-- The vector `v` is what the default, the sized, the fill or the
initializer-list constructor returns. -/
def FreshlyBuilt {T : Type} [Inhabited T] (v : Vector T) : Prop :=
  v = Vector.Default ∨ (∃ size, Vector.Sized size = .ok v) ∨
    (∃ (V : Type) (assign : T → V → T) (size : Nat) (value : V),
      Vector.Fill assign size value = .ok v) ∨
    (∃ (V : Type) (assign : T → V → T) (other : List V), Vector.InitList assign other = .ok v)

/-- The relation that a sequence of calls keeps between a vector and the largest
size asked of it: the size fits the capacity, the capacity fits `uint32_t`
rounding, and the capacity is zero with nothing asked or is the smallest power
of two that is at least the largest size asked. -/
def CapacityTracks {T : Type} (v : Vector T) (peak : Nat) : Prop :=
  v.Size_ ≤ v.Capacity_ ∧ v.Capacity_ ≤ 2 ^ 31 ∧
    ((v.Capacity_ = 0 ∧ peak = 0) ∨ SmallestPowerOfTwoGE v.Capacity_ peak)

/-- The vector that `Vector<int> t; t.Reserve(3); t.PushBack(1); t.Resize(5);
t.PopBack();` ends with. -/
def callsTestVector : Vector Nat :=
  { Size_ := 4, Capacity_ := 8, buffer := some [1, 0, 0, 0, 0, 0, 0, 0] }

/-- The vector that `Vector<int> t; t.Reserve(3); t.PushBack(1);` ends with. -/
def resizeTestVector : Vector Nat :=
  { Size_ := 1, Capacity_ := 4, buffer := some [1, 0, 0, 0] }

/-- The vector that `t.Resize(5)` makes of `resizeTestVector`. -/
def growTestVector : Vector Nat :=
  { Size_ := 5, Capacity_ := 8, buffer := some [1, 0, 0, 0, 0, 0, 0, 0] }

/-! # Lemmas and theorems -/

open Vector

variable {T V : Type}

/-! ## The error monad -/

theorem bind_eq_ok {ε α β : Type} {x : Except ε α} {f : α → Except ε β} {b : β} :
    (x >>= f) = .ok b ↔ ∃ a, x = .ok a ∧ f a = .ok b := by
  cases x <;> simp [bind, Except.bind]

theorem pure_eq_ok {ε α : Type} {a b : α} :
    (pure a : Except ε α) = .ok b ↔ a = b := by
  simp [pure, Except.pure]

theorem ok_bind {ε α β : Type} (a : α) (f : α → Except ε β) :
    ((Except.ok a : Except ε α) >>= f) = f a :=
  rfl

/-! ## `NextPowerOfTwo` -/

theorem bitCeilFrom_spec (fuel : Nat) : ∀ (j x : Nat), x ≤ 2 ^ (j + fuel) →
    (∀ i, i < j → 2 ^ i < x) →
    ∃ k, bitCeilFrom fuel (2 ^ j) x = 2 ^ k ∧ x ≤ 2 ^ k ∧ ∀ i, i < k → 2 ^ i < x := by
  induction fuel with
  | zero =>
    intro j x hx hlow
    exact ⟨j, rfl, by simpa using hx, hlow⟩
  | succ fuel ih =>
    intro j x hx hlow
    by_cases hle : x ≤ 2 ^ j
    · exact ⟨j, by simp [bitCeilFrom, hle], hle, hlow⟩
    · have hstep : bitCeilFrom (fuel + 1) (2 ^ j) x = bitCeilFrom fuel (2 ^ (j + 1)) x := by
        simp [bitCeilFrom, hle, pow_succ, Nat.mul_comm]
      rw [hstep]
      apply ih (j + 1) x
      · have : j + 1 + fuel = j + (fuel + 1) := by omega
        rw [this]; exact hx
      · intro i hi
        rcases Nat.lt_succ_iff_lt_or_eq.mp hi with h | h
        · exact hlow i h
        · subst h; omega

theorem bitCeilFrom_smallest (x : Nat) (hx : x ≤ 2 ^ 31) :
    SmallestPowerOfTwoGE (bitCeilFrom 31 1 x) x := by
  obtain ⟨k, hk, hxk, hmin⟩ := bitCeilFrom_spec 31 0 x (by simpa using hx) (by simp)
  rw [pow_zero] at hk
  rw [hk]
  refine ⟨⟨k, rfl⟩, hxk, ?_⟩
  intro j hj
  by_contra hlt
  have hjk : j < k := by
    by_contra hkj
    exact hlt (Nat.pow_le_pow_right (by norm_num) (Nat.le_of_not_lt hkj))
  have := hmin j hjk
  omega

theorem NextPowerOfTwo_ok_iff (x c : Nat) :
    NextPowerOfTwo x = .ok c ↔ x ≤ 2 ^ 31 ∧ c = bitCeilFrom 31 1 x := by
  unfold NextPowerOfTwo bit_ceil
  by_cases hx : x ≤ 2 ^ 31
  · rw [if_pos hx]
    constructor
    · intro h; exact ⟨hx, (Except.ok.inj h).symm⟩
    · rintro ⟨_, rfl⟩; rfl
  · rw [if_neg hx]
    constructor
    · intro h; cases h
    · rintro ⟨h, _⟩; exact absurd h hx

theorem NextPowerOfTwo_spec (x : Nat) (hx : x ≤ 2 ^ 31) :
    ∃ c, NextPowerOfTwo x = .ok c ∧ SmallestPowerOfTwoGE c x :=
  ⟨_, (NextPowerOfTwo_ok_iff x _).mpr ⟨hx, rfl⟩, bitCeilFrom_smallest x hx⟩

theorem NextPowerOfTwo_ok_smallest {x c : Nat} (h : NextPowerOfTwo x = .ok c) :
    SmallestPowerOfTwoGE c x := by
  obtain ⟨hx, rfl⟩ := (NextPowerOfTwo_ok_iff x c).mp h
  exact bitCeilFrom_smallest x hx

theorem NextPowerOfTwo_ok_ge {x c : Nat} (h : NextPowerOfTwo x = .ok c) : x ≤ c :=
  (NextPowerOfTwo_ok_smallest h).2.1

theorem SmallestPowerOfTwoGE_unique {c d n : Nat} (hc : SmallestPowerOfTwoGE c n)
    (hd : SmallestPowerOfTwoGE d n) : c = d := by
  obtain ⟨⟨k, rfl⟩, hck, hcmin⟩ := hc
  obtain ⟨⟨j, rfl⟩, hdj, hdmin⟩ := hd
  exact Nat.le_antisymm (hcmin j hdj) (hdmin k hck)

theorem SmallestPowerOfTwoGE_self {c n : Nat} (hc : SmallestPowerOfTwoGE c n) :
    SmallestPowerOfTwoGE c c :=
  ⟨hc.1, Nat.le_refl c, fun _ h => h⟩

theorem SmallestPowerOfTwoGE_le_bound {c n : Nat} (hc : SmallestPowerOfTwoGE c n)
    (hn : n ≤ 2 ^ 31) : c ≤ 2 ^ 31 :=
  hc.2.2 31 hn

theorem SmallestPowerOfTwoGE_succ {c n : Nat} (hc : SmallestPowerOfTwoGE c n) (hlt : n < c) :
    SmallestPowerOfTwoGE c (n + 1) :=
  ⟨hc.1, hlt, fun j hj => hc.2.2 j (by omega)⟩

theorem NextPowerOfTwo_of_smallest {c n : Nat} (hc : SmallestPowerOfTwoGE c n)
    (hn : n ≤ 2 ^ 31) : NextPowerOfTwo n = .ok c := by
  obtain ⟨d, hd, hds⟩ := NextPowerOfTwo_spec n hn
  rw [hd, SmallestPowerOfTwoGE_unique hc hds]

/-! ## Sizes and capacities after each operation -/

theorem Sized_ok [Inhabited T] {size : Nat} {v : Vector T} (h : Vector.Sized size = .ok v) :
    v.Size_ = size ∧
      ((size = 0 ∧ v.Capacity_ = 0) ∨ (0 < size ∧ NextPowerOfTwo size = .ok v.Capacity_)) ∧
      v.buffer = if 0 = size then none else some (newArray size) := by
  unfold Vector.Sized at h
  simp only [bind_eq_ok, pure_eq_ok] at h
  obtain ⟨c, hc, rfl⟩ := h
  refine ⟨rfl, ?_, rfl⟩
  by_cases h0 : 0 = size
  · rw [if_pos h0, pure_eq_ok] at hc
    exact Or.inl ⟨h0.symm, hc.symm⟩
  · rw [if_neg h0] at hc
    exact Or.inr ⟨by omega, hc⟩

theorem Fill_ok [Inhabited T] {assign : T → V → T} {size : Nat} {value : V} {v : Vector T}
    (h : Vector.Fill assign size value = .ok v) :
    v.Size_ = size ∧
      ((size = 0 ∧ v.Capacity_ = 0) ∨ (0 < size ∧ NextPowerOfTwo size = .ok v.Capacity_)) := by
  unfold Vector.Fill at h
  simp only [bind_eq_ok, pure_eq_ok] at h
  obtain ⟨c, hc, b, _, rfl⟩ := h
  refine ⟨rfl, ?_⟩
  by_cases h0 : 0 = size
  · rw [if_pos h0, pure_eq_ok] at hc
    exact Or.inl ⟨h0.symm, hc.symm⟩
  · rw [if_neg h0] at hc
    exact Or.inr ⟨by omega, hc⟩

theorem CopyFrom_ok [Inhabited T] {assign : T → V → T} {other : Vector V} {v : Vector T}
    (h : Vector.CopyFrom assign other = .ok v) :
    v.Size_ = other.Size_ ∧ v.Capacity_ = other.Capacity_ := by
  unfold Vector.CopyFrom at h
  simp only [bind_eq_ok, pure_eq_ok] at h
  obtain ⟨b, _, rfl⟩ := h
  exact ⟨rfl, rfl⟩

theorem Copy_ok [Inhabited T] {other v : Vector T} (h : Vector.Copy other = .ok v) :
    v.Size_ = other.Size_ ∧ v.Capacity_ = other.Capacity_ := by
  unfold Vector.Copy at h
  simp only [bind_eq_ok, pure_eq_ok] at h
  obtain ⟨b, _, rfl⟩ := h
  exact ⟨rfl, rfl⟩

theorem InitList_ok [Inhabited T] {assign : T → V → T} {other : List V} {v : Vector T}
    (h : Vector.InitList assign other = .ok v) :
    v.Size_ = other.length % 2 ^ 32 ∧
      ((other.length = 0 ∧ v.Capacity_ = 0) ∨
        (0 < other.length ∧ NextPowerOfTwo (other.length % 2 ^ 32) = .ok v.Capacity_)) := by
  unfold Vector.InitList at h
  simp only [bind_eq_ok, pure_eq_ok] at h
  obtain ⟨c, hc, b, _, rfl⟩ := h
  refine ⟨rfl, ?_⟩
  by_cases h0 : 0 = other.length
  · rw [if_pos h0, pure_eq_ok] at hc
    exact Or.inl ⟨h0.symm, hc.symm⟩
  · rw [if_neg h0] at hc
    exact Or.inr ⟨by omega, hc⟩

theorem MoveFrom_ok [Inhabited T] {assign : T → V → T} {other : Vector V}
    {r : Vector T × Vector V} (h : Vector.MoveFrom assign other = .ok r) :
    r.1.Size_ = other.Size_ ∧ r.1.Capacity_ = other.Capacity_ ∧ r.2 = other.Clear := by
  unfold Vector.MoveFrom at h
  simp only [bind_eq_ok, pure_eq_ok] at h
  obtain ⟨b, _, rfl⟩ := h
  exact ⟨rfl, rfl, rfl⟩

theorem CopyAssignFrom_ok [Inhabited T] {assign : T → V → T} {self : Vector T}
    {other : Vector V} {v : Vector T} (h : Vector.CopyAssignFrom assign self other = .ok v) :
    v.Size_ = other.Size_ ∧ v.Capacity_ = other.Capacity_ := by
  unfold Vector.CopyAssignFrom at h
  simp only [bind_eq_ok, pure_eq_ok] at h
  obtain ⟨b, _, rfl⟩ := h
  exact ⟨rfl, rfl⟩

theorem CopyAssign_ok [Inhabited T] {self other v : Vector T}
    (h : Vector.CopyAssign false self other = .ok v) :
    v.Size_ = other.Size_ ∧ v.Capacity_ = other.Capacity_ := by
  unfold Vector.CopyAssign at h
  simp only [Bool.false_eq_true, if_false, bind_eq_ok, pure_eq_ok] at h
  obtain ⟨b, _, rfl⟩ := h
  exact ⟨rfl, rfl⟩

theorem CopyAssign_self [Inhabited T] {self other v : Vector T}
    (h : Vector.CopyAssign true self other = .ok v) : v = self := by
  unfold Vector.CopyAssign at h
  simp only [if_true, pure_eq_ok] at h
  exact h.symm

theorem MoveAssignFrom_ok [Inhabited T] {assign : T → V → T} {self : Vector T}
    {other : Vector V} {r : Vector T × Vector V}
    (h : Vector.MoveAssignFrom assign self other = .ok r) :
    r.1.Size_ = other.Size_ ∧ r.1.Capacity_ = other.Capacity_ ∧ r.2 = other.Clear := by
  unfold Vector.MoveAssignFrom at h
  simp only [bind_eq_ok, pure_eq_ok] at h
  obtain ⟨b, _, rfl⟩ := h
  exact ⟨rfl, rfl, rfl⟩

theorem Reserve_ok [Inhabited T] {self v : Vector T} {n : Nat} (h : self.Reserve n = .ok v) :
    v.Size_ = self.Size_ ∧
      ((n ≤ self.Capacity_ ∧ v = self) ∨
        (self.Capacity_ < n ∧ NextPowerOfTwo n = .ok v.Capacity_)) := by
  unfold Vector.Reserve at h
  split at h
  · rename_i hgt
    simp only [bind_eq_ok, pure_eq_ok] at h
    obtain ⟨c, hc, b, _, rfl⟩ := h
    exact ⟨rfl, Or.inr ⟨hgt, hc⟩⟩
  · rename_i hle
    rw [pure_eq_ok] at h
    subst h
    exact ⟨rfl, Or.inl ⟨Nat.le_of_not_lt hle, rfl⟩⟩

theorem Reserve_capacity_ge [Inhabited T] {self v : Vector T} {n : Nat}
    (h : self.Reserve n = .ok v) : n ≤ v.Capacity_ ∧ self.Capacity_ ≤ v.Capacity_ := by
  obtain ⟨_, hcase | hcase⟩ := Reserve_ok h
  · obtain ⟨hle, rfl⟩ := hcase
    exact ⟨hle, Nat.le_refl _⟩
  · have := NextPowerOfTwo_ok_ge hcase.2
    omega

theorem Resize_ok [Inhabited T] {self v : Vector T} {n : Nat} (h : self.Resize n = .ok v) :
    v.Size_ = n ∧ n ≤ v.Capacity_ ∧ self.Capacity_ ≤ v.Capacity_ := by
  unfold Vector.Resize at h
  simp only [bind_eq_ok, pure_eq_ok] at h
  obtain ⟨g, hg, rfl⟩ := h
  refine ⟨rfl, ?_⟩
  show n ≤ g.Capacity_ ∧ self.Capacity_ ≤ g.Capacity_
  split at hg
  · rw [bind_eq_ok] at hg
    obtain ⟨c, hc, hres⟩ := hg
    have h1 := NextPowerOfTwo_ok_ge hc
    have h2 := Reserve_capacity_ge hres
    omega
  · rw [pure_eq_ok] at hg
    subst hg
    omega

theorem ReserveIfNeeded_ok [Inhabited T] {self v : Vector T}
    (h : self.ReserveIfNeeded = .ok v) :
    v.Size_ = self.Size_ ∧
      ((self.Size_ ≠ self.Capacity_ ∧ v = self) ∨
        (self.Size_ = self.Capacity_ ∧
          ∃ c, NextPowerOfTwo ((self.Size_ + 1) % 2 ^ 32) = .ok c ∧ self.Reserve c = .ok v)) := by
  unfold Vector.ReserveIfNeeded at h
  split at h
  · rename_i heq
    rw [bind_eq_ok] at h
    obtain ⟨c, hc, hres⟩ := h
    exact ⟨(Reserve_ok hres).1, Or.inr ⟨heq, c, hc, hres⟩⟩
  · rename_i hne
    rw [pure_eq_ok] at h
    subst h
    exact ⟨rfl, Or.inl ⟨hne, rfl⟩⟩

theorem ReserveIfNeeded_room [Inhabited T] {self v : Vector T}
    (hinv : self.Size_ ≤ self.Capacity_) (h : self.ReserveIfNeeded = .ok v) :
    (v.Size_ + 1) % 2 ^ 32 ≤ v.Capacity_ ∧ self.Capacity_ ≤ v.Capacity_ := by
  obtain ⟨hsize, hcase | hcase⟩ := ReserveIfNeeded_ok h
  · obtain ⟨hne, hv⟩ := hcase
    rw [hv]
    have := Nat.mod_le (self.Size_ + 1) (2 ^ 32)
    omega
  · obtain ⟨_, c, hc, hres⟩ := hcase
    have h1 := NextPowerOfTwo_ok_ge hc
    have h2 := Reserve_capacity_ge hres
    rw [hsize]
    omega

theorem PushBack_ok [Inhabited T] {assign : T → V → T} {self v : Vector T} {value : V}
    (h : self.PushBack assign value = .ok v) :
    ∃ ready, self.ReserveIfNeeded = .ok ready ∧ v.Size_ = (ready.Size_ + 1) % 2 ^ 32 ∧
      v.Capacity_ = ready.Capacity_ ∧
      assignAt assign ready.buffer ready.Size_ value = .ok v.buffer := by
  unfold Vector.PushBack at h
  simp only [bind_eq_ok, pure_eq_ok] at h
  obtain ⟨ready, hready, b, hb, rfl⟩ := h
  exact ⟨ready, hready, rfl, rfl, hb⟩

theorem EmplaceBack_ok [Inhabited T] {self v : Vector T} {made : T}
    (h : self.EmplaceBack made = .ok v) :
    ∃ ready, self.ReserveIfNeeded = .ok ready ∧ v.Size_ = (ready.Size_ + 1) % 2 ^ 32 ∧
      v.Capacity_ = ready.Capacity_ ∧
      assignAt valueAssign ready.buffer ready.Size_ made = .ok v.buffer := by
  unfold Vector.EmplaceBack at h
  simp only [bind_eq_ok, pure_eq_ok] at h
  obtain ⟨ready, hready, b, hb, rfl⟩ := h
  exact ⟨ready, hready, rfl, rfl, hb⟩

theorem Insert_ok [Inhabited T] {assign : T → V → T} {self v : Vector T} {index : Nat}
    {value : V} (h : self.Insert assign index value = .ok v) :
    index ≤ self.Size_ ∧ ∃ ready, self.ReserveIfNeeded = .ok ready ∧
      v.Size_ = (ready.Size_ + 1) % 2 ^ 32 ∧ v.Capacity_ = ready.Capacity_ ∧
      ∃ shifted, forDown shiftRightSlot (ready.Size_ - index) ready.Size_ ready.buffer
          = .ok shifted ∧ assignAt assign shifted index value = .ok v.buffer := by
  unfold Vector.Insert at h
  split at h
  · rename_i hle
    simp only [bind_eq_ok, pure_eq_ok] at h
    obtain ⟨ready, hready, shifted, hshift, b, hb, rfl⟩ := h
    exact ⟨hle, ready, hready, rfl, rfl, shifted, hshift, hb⟩
  · cases h

theorem Erase_ok {self v : Vector T} {index : Nat} (h : self.Erase index = .ok v) :
    index < self.Size_ ∧ v.Size_ = self.Size_ - 1 ∧ v.Capacity_ = self.Capacity_ ∧
      forUp shiftLeftSlot (self.Size_ - 1 - index) index self.buffer = .ok v.buffer := by
  unfold Vector.Erase at h
  split at h
  · rename_i hlt
    simp only [bind_eq_ok, pure_eq_ok] at h
    obtain ⟨shifted, hshift, rfl⟩ := h
    exact ⟨hlt, rfl, rfl, hshift⟩
  · cases h

theorem PopBack_ok {self v : Vector T} (h : self.PopBack = .ok v) :
    0 < self.Size_ ∧ v.Size_ = self.Size_ - 1 ∧ v.Capacity_ = self.Capacity_ ∧
      v.buffer = self.buffer := by
  unfold Vector.PopBack at h
  split at h
  · rename_i hpos
    rw [pure_eq_ok] at h
    subst h
    exact ⟨hpos, rfl, rfl, rfl⟩
  · cases h

theorem SubscriptAssign_ok {assign : T → V → T} {self v : Vector T} {index : Nat} {value : V}
    (h : self.SubscriptAssign assign index value = .ok v) :
    index < self.Size_ ∧ v.Size_ = self.Size_ ∧ v.Capacity_ = self.Capacity_ ∧
      assignAt assign self.buffer index value = .ok v.buffer := by
  unfold Vector.SubscriptAssign at h
  split at h
  · rename_i hlt
    simp only [bind_eq_ok, pure_eq_ok] at h
    obtain ⟨b, hb, rfl⟩ := h
    exact ⟨hlt, rfl, rfl, hb⟩
  · cases h

theorem BeginAssign_ok {assign : T → V → T} {self v : Vector T} {offset : Nat} {value : V}
    (h : self.BeginAssign assign offset value = .ok v) :
    v.Size_ = self.Size_ ∧ v.Capacity_ = self.Capacity_ ∧
      assignAt assign self.buffer offset value = .ok v.buffer := by
  unfold Vector.BeginAssign at h
  simp only [bind_eq_ok, pure_eq_ok] at h
  obtain ⟨b, hb, rfl⟩ := h
  exact ⟨rfl, rfl, hb⟩

/-! ## Reads, writes and the loops over the block -/

theorem readAt_some_of_lt {slots : List T} {i : Nat} (h : i < slots.length) :
    readAt (some slots) i = .ok slots[i] := by
  simp [readAt, List.getElem?_eq_getElem h]

theorem readAt_ne_OutOfBounds (b : Option (List T)) (i : Nat) :
    readAt b i ≠ .error .OutOfBounds := by
  cases b with
  | none => simp [readAt]
  | some slots =>
    simp only [readAt]
    split <;> simp

theorem assignAt_some_of_lt (assign : T → V → T) {slots : List T} {i : Nat}
    (h : i < slots.length) (value : V) :
    assignAt assign (some slots) i value = .ok (some (slots.set i (assign slots[i] value))) := by
  simp [assignAt, List.getElem?_eq_getElem h]

theorem assignAt_ok {assign : T → V → T} {b b' : Option (List T)} {i : Nat} {value : V}
    (h : assignAt assign b i value = .ok b') :
    ∃ slots, ∃ hi : i < slots.length,
      b = some slots ∧ b' = some (slots.set i (assign slots[i] value)) := by
  cases b with
  | none => cases h
  | some slots =>
    by_cases hi : i < slots.length
    · rw [assignAt_some_of_lt assign hi] at h
      exact ⟨slots, hi, rfl, (Except.ok.inj h).symm⟩
    · simp [assignAt, List.getElem?_eq_none (Nat.le_of_not_lt hi)] at h

theorem forUp_copySlot (assign : T → V → T) (s : List V) :
    ∀ (n i : Nat) (dst : List T), i + n ≤ s.length → i + n ≤ dst.length →
      ∃ r, forUp (copySlot assign (some s)) n i (some dst) = .ok (some r) ∧
        r.length = dst.length ∧
        (∀ j, i ≤ j → j < i + n →
          ∃ d x, dst[j]? = some d ∧ s[j]? = some x ∧ r[j]? = some (assign d x)) ∧
        (∀ j, j < i ∨ i + n ≤ j → r[j]? = dst[j]?) := by
  intro n
  induction n with
  | zero =>
    intro i dst _ _
    exact ⟨dst, rfl, rfl, fun j h1 h2 => absurd h2 (by omega), fun _ _ => rfl⟩
  | succ n ih =>
    intro i dst hs hd
    have his : i < s.length := by omega
    have hid : i < dst.length := by omega
    obtain ⟨r, hr, hlen, hin, hout⟩ :=
      ih (i + 1) (dst.set i (assign dst[i] s[i])) (by omega) (by simp; omega)
    refine ⟨r, ?_, by simpa using hlen, ?_, ?_⟩
    · show (copySlot assign (some s) i (some dst) >>= _) = _
      rw [copySlot, readAt_some_of_lt his]
      show (assignAt assign (some dst) i s[i] >>= _) = _
      rw [assignAt_some_of_lt assign hid]
      exact hr
    · intro j h1 h2
      by_cases hji : j = i
      · subst hji
        refine ⟨dst[j], s[j], List.getElem?_eq_getElem hid, List.getElem?_eq_getElem his, ?_⟩
        rw [hout j (Or.inl (by omega))]
        simp [List.getElem?_set_self hid]
      · obtain ⟨d, x, hd', hx, hrj⟩ := hin j (by omega) (by omega)
        refine ⟨d, x, ?_, hx, hrj⟩
        rw [← hd', List.getElem?_set_ne (by omega)]
    · intro j hj
      rw [hout j (by omega), List.getElem?_set_ne (by omega)]

theorem forUp_shiftLeftSlot :
    ∀ (n i : Nat) (l : List T), i + n < l.length →
      ∃ r, forUp Vector.shiftLeftSlot n i (some l) = .ok (some r) ∧ r.length = l.length ∧
        ∀ j, r[j]? = if i ≤ j ∧ j < i + n then l[j + 1]? else l[j]? := by
  intro n
  induction n with
  | zero =>
    intro i l _
    refine ⟨l, rfl, rfl, fun j => ?_⟩
    rw [if_neg (by omega)]
  | succ n ih =>
    intro i l hl
    have h1 : i + 1 < l.length := by omega
    have h0 : i < l.length := by omega
    obtain ⟨r, hr, hlen, hpt⟩ := ih (i + 1) (l.set i l[i + 1]) (by simp; omega)
    refine ⟨r, ?_, by simpa using hlen, ?_⟩
    · show (Vector.shiftLeftSlot i (some l) >>= _) = _
      rw [Vector.shiftLeftSlot, readAt_some_of_lt h1, ok_bind,
        assignAt_some_of_lt valueAssign h0, ok_bind]
      exact hr
    · intro j
      rw [hpt j]
      by_cases hji : j = i
      · subst hji
        rw [if_neg (by omega), if_pos (by omega), List.getElem?_set_self h0,
          List.getElem?_eq_getElem h1]
      · by_cases hin : i + 1 ≤ j ∧ j < i + 1 + n
        · rw [if_pos hin, if_pos (by omega), List.getElem?_set_ne (by omega)]
        · rw [if_neg hin, if_neg (by omega), List.getElem?_set_ne (by omega)]

theorem forDown_shiftRightSlot :
    ∀ (n i : Nat) (l : List T), n ≤ i → i < l.length → i < 2 ^ 31 →
      ∃ r, forDown Vector.shiftRightSlot n i (some l) = .ok (some r) ∧ r.length = l.length ∧
        ∀ j, r[j]? = if i - n < j ∧ j ≤ i then l[j - 1]? else l[j]? := by
  intro n
  induction n with
  | zero =>
    intro i l _ _ _
    refine ⟨l, rfl, rfl, fun j => ?_⟩
    rw [if_neg (by omega)]
  | succ n ih =>
    intro i l hn hi hb
    have h1 : i - 1 < l.length := by omega
    obtain ⟨r, hr, hlen, hpt⟩ :=
      ih (i - 1) (l.set i l[i - 1]) (by omega) (by simp; omega) (by omega)
    refine ⟨r, ?_, by simpa using hlen, ?_⟩
    · show (Vector.shiftRightSlot i (some l) >>= _) = _
      rw [Vector.shiftRightSlot, if_pos hb, readAt_some_of_lt h1, ok_bind,
        assignAt_some_of_lt valueAssign hi, ok_bind]
      exact hr
    · intro j
      rw [hpt j]
      by_cases hji : j = i
      · subst hji
        rw [if_neg (by omega), if_pos (by omega), List.getElem?_set_self hi,
          List.getElem?_eq_getElem h1]
      · by_cases hin : i - 1 - n < j ∧ j ≤ i - 1
        · rw [if_pos hin, if_pos (by omega), List.getElem?_set_ne (by omega)]
        · rw [if_neg hin, if_neg (by omega), List.getElem?_set_ne (by omega)]

theorem take_set_succ (r : List T) (n : Nat) (y : T) (h : n < r.length) :
    (r.set n y).take (n + 1) = r.take n ++ [y] := by
  apply List.ext_getElem?
  intro j
  rw [List.getElem?_take, List.getElem?_append, List.getElem?_set]
  have hlen : (List.take n r).length = n := List.length_take_of_le (Nat.le_of_lt h)
  rw [hlen]
  by_cases hjn : j < n
  · have hne : n ≠ j := by omega
    simp [hjn, hne, List.getElem?_take_of_lt hjn, Nat.lt_succ_of_lt hjn]
  · by_cases hje : j = n
    · subst hje
      simp [h]
    · have h1 : ¬ j < n + 1 := by omega
      have h2 : j - n ≠ 0 := by omega
      simp [hjn, h1]
      omega

theorem take_insert_shifted (r sh : List T) (n index : Nat) (y : T) (hidx : index ≤ n)
    (hn : n < r.length) (hlen : sh.length = r.length)
    (hpt : ∀ j, sh[j]? = if n - (n - index) < j ∧ j ≤ n then r[j - 1]? else r[j]?) :
    (sh.set index y).take (n + 1) = (r.take n).take index ++ y :: (r.take n).drop index := by
  apply List.ext_getElem?
  intro j
  have hlt : (List.take index (List.take n r)).length = index := by
    simp; omega
  rw [List.getElem?_take, List.getElem?_append, hlt, List.getElem?_set]
  by_cases hj : j < n + 1
  · rw [if_pos hj]
    by_cases hji : j < index
    · rw [if_neg (by omega), if_pos hji, hpt j, if_neg (by omega),
        List.getElem?_take_of_lt hji, List.getElem?_take_of_lt (by omega)]
    · rw [if_neg hji]
      by_cases hje : index = j
      · subst hje
        rw [if_pos rfl, if_pos (by omega), Nat.sub_self, List.getElem?_cons_zero]
      · rw [if_neg hje, hpt j, if_pos (by omega)]
        obtain ⟨k, hk⟩ : ∃ k, j - index = k + 1 := ⟨j - index - 1, by omega⟩
        rw [hk, List.getElem?_cons_succ, List.getElem?_drop,
          List.getElem?_take_of_lt (by omega)]
        congr 1
        omega
  · rw [if_neg hj, if_neg (by omega)]
    obtain ⟨k, hk⟩ : ∃ k, j - index = k + 1 := ⟨j - index - 1, by omega⟩
    rw [hk, List.getElem?_cons_succ, List.getElem?_drop,
      List.getElem?_take_eq_none (by omega)]

theorem eraseIdx_take_cons_drop (s : List T) (i : Nat) (x : T) (hi : i ≤ s.length) :
    (s.take i ++ x :: s.drop i).eraseIdx i = s := by
  apply List.ext_getElem?
  intro j
  have hlt : (List.take i s).length = i := List.length_take_of_le hi
  rw [List.getElem?_eraseIdx]
  by_cases hji : j < i
  · rw [if_pos hji, List.getElem?_append_left (by omega), List.getElem?_take_of_lt hji]
  · rw [if_neg hji, List.getElem?_append_right (by omega), hlt]
    obtain ⟨k, hk⟩ : ∃ k, j + 1 - i = k + 1 := ⟨j - i, by omega⟩
    rw [hk, List.getElem?_cons_succ, List.getElem?_drop]
    congr 1
    omega

/-! ## The sequence a vector holds -/

theorem contents_eq_some {v : Vector T} {s : List T} (h : v.contents = some s) :
    s.length = v.Size_ ∧
      ((v.buffer = none ∧ v.Size_ = 0) ∨
        ∃ slots, v.buffer = some slots ∧ v.Size_ ≤ slots.length ∧ s = slots.take v.Size_) := by
  unfold Vector.contents at h
  cases hb : v.buffer with
  | none =>
    rw [hb] at h
    by_cases h0 : v.Size_ = 0
    · simp only [h0, if_true] at h
      cases h
      exact ⟨h0.symm, Or.inl ⟨rfl, h0⟩⟩
    · simp [h0] at h
  | some slots =>
    rw [hb] at h
    by_cases hle : v.Size_ ≤ slots.length
    · simp only [hle, if_true] at h
      cases h
      exact ⟨by simp [hle], Or.inr ⟨slots, rfl, hle, rfl⟩⟩
    · simp [hle] at h

theorem contents_of_slots {v : Vector T} (slots : List T) (hb : v.buffer = some slots)
    (hle : v.Size_ ≤ slots.length) : v.contents = some (slots.take v.Size_) := by
  simp [Vector.contents, hb, hle]

theorem Subscript_of_contents {v : Vector T} {s : List T} (hs : v.contents = some s)
    (i : Nat) (hi : i < s.length) : v.Subscript i = .ok s[i] := by
  obtain ⟨hlen, hbuf⟩ := contents_eq_some hs
  unfold Vector.Subscript
  rw [if_pos (by omega)]
  rcases hbuf with ⟨_, h0⟩ | ⟨slots, hsome, hle, hs'⟩
  · omega
  · subst hs'
    rw [hsome, readAt_some_of_lt (by omega)]
    simp

theorem Subscript_OutOfBounds_iff (v : Vector T) (i : Nat) :
    v.Subscript i = .error .OutOfBounds ↔ v.Size_ ≤ i := by
  unfold Vector.Subscript
  by_cases hi : i < v.Size_
  · rw [if_pos hi]
    constructor
    · intro h
      exact absurd h (readAt_ne_OutOfBounds v.buffer i)
    · intro h
      omega
  · rw [if_neg hi]
    constructor
    · intro _
      omega
    · intro _
      rfl

theorem Exact_contents_size_le {v : Vector T} {s : List T} (hex : v.Exact)
    (hs : v.contents = some s) : v.Size_ ≤ v.Capacity_ := by
  obtain ⟨_, hbuf⟩ := contents_eq_some hs
  unfold Vector.Exact Vector.slotCount at hex
  rcases hbuf with ⟨_, h0⟩ | ⟨slots, hsome, hle, _⟩
  · omega
  · rw [hsome] at hex
    simp at hex
    omega

/-! ## Operations on a vector whose elements exist -/

theorem Reserve_grow [Inhabited T] {v : Vector T} {s : List T} {n : Nat}
    (hs : v.contents = some s) (hcap : v.Size_ ≤ v.Capacity_) (hn : v.Capacity_ < n)
    (hb : n ≤ 2 ^ 31) :
    ∃ c r, NextPowerOfTwo n = .ok c ∧
      v.Reserve n = .ok { Size_ := v.Size_, Capacity_ := c, buffer := some r } ∧
      r.length = c ∧ r.take v.Size_ = s ∧ ∀ j, v.Size_ ≤ j → j < c → r[j]? = some default := by
  obtain ⟨c, hc, hcs⟩ := NextPowerOfTwo_spec n hb
  have hnc : n ≤ c := hcs.2.1
  obtain ⟨hlen, hbuf⟩ := contents_eq_some hs
  have hres : ∀ r, forUp (copySlot valueAssign v.buffer) v.Size_ 0 (some (newArray c))
      = .ok (some r) →
      v.Reserve n = .ok { Size_ := v.Size_, Capacity_ := c, buffer := some r } := by
    intro r hr
    unfold Vector.Reserve
    rw [if_pos hn, hc, ok_bind]
    simp only [hr, ok_bind]
    rfl
  rcases hbuf with ⟨hnone, h0⟩ | ⟨slots, hsome, hle, hs'⟩
  · refine ⟨c, newArray c, hc, hres _ ?_, by simp [newArray], ?_, ?_⟩
    · rw [h0]; rfl
    · rw [h0]
      have : s = [] := List.eq_nil_of_length_eq_zero (by omega)
      simp [this]
    · intro j _ hj
      simp [newArray, hj]
  · obtain ⟨r, hr, hrlen, hin, hout⟩ :=
      forUp_copySlot (valueAssign : T → T → T) slots v.Size_ 0 (newArray c)
        (by omega) (by simp [newArray]; omega)
    refine ⟨c, r, hc, hres _ (by rw [hsome]; exact hr), by simpa [newArray] using hrlen, ?_, ?_⟩
    · rw [hs']
      apply List.ext_getElem?
      intro j
      by_cases hj : j < v.Size_
      · obtain ⟨d, x, _, hx, hrj⟩ := hin j (Nat.zero_le j) (by omega)
        rw [List.getElem?_take_of_lt hj, List.getElem?_take_of_lt hj, hrj, hx]
        rfl
      · rw [List.getElem?_take_eq_none (Nat.le_of_not_lt hj),
          List.getElem?_take_eq_none (Nat.le_of_not_lt hj)]
    · intro j hj1 hj2
      rw [hout j (Or.inr (by omega))]
      simp [newArray, hj2]

theorem ReserveIfNeeded_exact [Inhabited T] {v : Vector T} {s : List T}
    (hex : v.Exact) (hs : v.contents = some s) (hb : v.Size_ < 2 ^ 31) :
    ∃ ready r, v.ReserveIfNeeded = .ok ready ∧ ready.buffer = some r ∧
      r.length = ready.Capacity_ ∧ ready.Size_ = v.Size_ ∧ v.Size_ < r.length ∧
      r.take v.Size_ = s ∧
      (v.Size_ < v.Capacity_ → ready.Capacity_ = v.Capacity_) ∧
      (v.Size_ = v.Capacity_ → SmallestPowerOfTwoGE ready.Capacity_ (v.Size_ + 1)) := by
  have hle := Exact_contents_size_le hex hs
  by_cases heq : v.Size_ = v.Capacity_
  · have hmod : (v.Size_ + 1) % 2 ^ 32 = v.Size_ + 1 := Nat.mod_eq_of_lt (by omega)
    obtain ⟨c, hc, hcs⟩ := NextPowerOfTwo_spec (v.Size_ + 1) (by omega)
    have hcb : c ≤ 2 ^ 31 := SmallestPowerOfTwoGE_le_bound hcs (by omega)
    have hgt : v.Capacity_ < c := by have := hcs.2.1; omega
    obtain ⟨c', r, hc', hres, hrlen, hrtake, _⟩ := Reserve_grow hs hle hgt hcb
    have hcc : c' = c := by
      have h1 := NextPowerOfTwo_of_smallest (SmallestPowerOfTwoGE_self hcs) hcb
      rw [h1] at hc'
      exact (Except.ok.inj hc').symm
    subst hcc
    refine ⟨{ Size_ := v.Size_, Capacity_ := c', buffer := some r }, r, ?_, rfl, hrlen, rfl,
      by omega, hrtake, fun h => absurd heq (by omega), fun _ => hcs⟩
    unfold Vector.ReserveIfNeeded
    rw [if_pos heq, hmod, hc, ok_bind, hres]
  · obtain ⟨_, hbuf⟩ := contents_eq_some hs
    have hex' := hex
    unfold Vector.Exact Vector.slotCount at hex'
    rcases hbuf with ⟨hnone, h0⟩ | ⟨slots, hsome, hsl, hs'⟩
    · rw [hnone] at hex'
      simp at hex'
      omega
    · rw [hsome] at hex'
      simp at hex'
      refine ⟨v, slots, ?_, hsome, hex', rfl, by omega, hs'.symm, fun _ => rfl,
        fun h => absurd h heq⟩
      unfold Vector.ReserveIfNeeded
      rw [if_neg heq]
      rfl

theorem PushBack_of_ready [Inhabited T] (assign : T → V → T) {v ready : Vector T}
    {r s : List T} (value : V) (hready : v.ReserveIfNeeded = .ok ready)
    (hbuf : ready.buffer = some r) (hlen : r.length = ready.Capacity_)
    (hroom : ready.Size_ < r.length) (htake : r.take ready.Size_ = s)
    (hb : ready.Size_ < 2 ^ 31) :
    ∃ w cur, v.PushBack assign value = .ok w ∧ w.Exact ∧
      w.contents = some (s ++ [assign cur value]) ∧ w.Size_ = ready.Size_ + 1 ∧
      w.Capacity_ = ready.Capacity_ := by
  have hmod : (ready.Size_ + 1) % 2 ^ 32 = ready.Size_ + 1 := Nat.mod_eq_of_lt (by omega)
  refine ⟨{ ready with buffer := some (r.set ready.Size_ (assign r[ready.Size_] value)),
                       Size_ := ready.Size_ + 1 }, r[ready.Size_], ?_, ?_, ?_, rfl, rfl⟩
  · unfold Vector.PushBack
    rw [hready, ok_bind, hbuf, assignAt_some_of_lt assign hroom, ok_bind, hmod]
    rfl
  · simp [Vector.Exact, Vector.slotCount, hlen]
  · rw [contents_of_slots (r.set ready.Size_ (assign r[ready.Size_] value)) rfl
      (by simp; omega)]
    show some (List.take (ready.Size_ + 1) _) = _
    rw [take_set_succ r _ _ hroom, htake]

theorem PushBack_exact [Inhabited T] (assign : T → V → T) {v : Vector T} {s : List T}
    (value : V) (hex : v.Exact) (hs : v.contents = some s) (hb : v.Size_ < 2 ^ 31) :
    ∃ w cur, v.PushBack assign value = .ok w ∧ w.Exact ∧
      w.contents = some (s ++ [assign cur value]) ∧ w.Size_ = v.Size_ + 1 ∧
      (v.Size_ < v.Capacity_ → w.Capacity_ = v.Capacity_) ∧
      (v.Size_ = v.Capacity_ → SmallestPowerOfTwoGE w.Capacity_ (v.Size_ + 1)) := by
  obtain ⟨ready, r, hready, hbuf, hrlen, hsize, hroom, hrtake, hkeep, hgrow⟩ :=
    ReserveIfNeeded_exact hex hs hb
  have htake : r.take ready.Size_ = s := by rw [hsize]; exact hrtake
  obtain ⟨w, cur, hw, hwex, hwc, hwsize, hwcap⟩ :=
    PushBack_of_ready assign value hready hbuf hrlen (by omega) htake (by omega)
  exact ⟨w, cur, hw, hwex, hwc, by omega, fun h => by rw [hwcap]; exact hkeep h,
    fun h => by rw [hwcap]; exact hgrow h⟩

theorem Insert_exact [Inhabited T] (assign : T → V → T) {v : Vector T} {s : List T}
    (index : Nat) (value : V) (hex : v.Exact) (hs : v.contents = some s)
    (hb : v.Size_ < 2 ^ 31) (hidx : index ≤ v.Size_) :
    ∃ w cur, v.Insert assign index value = .ok w ∧ w.Exact ∧
      w.contents = some (s.take index ++ assign cur value :: s.drop index) ∧
      w.Size_ = v.Size_ + 1 := by
  obtain ⟨ready, r, hready, hbuf, hrlen, hsize, hroom, hrtake, _, _⟩ :=
    ReserveIfNeeded_exact hex hs hb
  obtain ⟨sh, hsh, hshlen, hpt⟩ :=
    forDown_shiftRightSlot (v.Size_ - index) v.Size_ r (by omega) hroom hb
  have hmod : (v.Size_ + 1) % 2 ^ 32 = v.Size_ + 1 := Nat.mod_eq_of_lt (by omega)
  have hish : index < sh.length := by omega
  refine ⟨{ ready with buffer := some (sh.set index (assign sh[index] value)),
                       Size_ := v.Size_ + 1 }, sh[index], ?_, ?_, ?_, rfl⟩
  · unfold Vector.Insert
    rw [if_pos hidx, hready, ok_bind, hbuf, hsize, hsh, ok_bind,
      assignAt_some_of_lt assign hish, ok_bind, hmod]
    rfl
  · simp [Vector.Exact, Vector.slotCount, hshlen, hrlen]
  · rw [contents_of_slots (sh.set index (assign sh[index] value)) rfl (by simp; omega)]
    show some (List.take (v.Size_ + 1) _) = _
    rw [take_insert_shifted r sh v.Size_ index _ hidx hroom hshlen hpt, hrtake]

theorem Erase_of_contents {v : Vector T} {s : List T} (hs : v.contents = some s) (i : Nat)
    (hi : i < v.Size_) :
    ∃ w, v.Erase i = .ok w ∧ w.contents = some (s.eraseIdx i) ∧
      w.Size_ = v.Size_ - 1 ∧ w.Capacity_ = v.Capacity_ ∧ w.slotCount = v.slotCount := by
  obtain ⟨hlen, hbuf⟩ := contents_eq_some hs
  rcases hbuf with ⟨_, h0⟩ | ⟨slots, hsome, hle, hs'⟩
  · omega
  · obtain ⟨r, hr, hrlen, hpt⟩ :=
      forUp_shiftLeftSlot (v.Size_ - 1 - i) i slots (by omega)
    refine ⟨{ v with buffer := some r, Size_ := v.Size_ - 1 }, ?_, ?_, rfl, rfl, ?_⟩
    · unfold Vector.Erase
      rw [if_pos hi, hsome, hr, ok_bind]
      rfl
    · rw [contents_of_slots r rfl (by show v.Size_ - 1 ≤ r.length; omega)]
      show some (List.take (v.Size_ - 1) r) = _
      congr 1
      apply List.ext_getElem?
      intro j
      rw [List.getElem?_eraseIdx, hs']
      by_cases hj : j < v.Size_ - 1
      · rw [List.getElem?_take_of_lt hj, hpt j]
        by_cases hji : j < i
        · rw [if_neg (by omega), if_pos hji, List.getElem?_take_of_lt (by omega)]
        · rw [if_pos (by omega), if_neg hji, List.getElem?_take_of_lt (by omega)]
      · rw [List.getElem?_take_eq_none (by omega)]
        by_cases hji : j < i
        · omega
        · rw [if_neg hji, List.getElem?_take_eq_none (by omega)]
    · simp [Vector.slotCount, hsome, hrlen]

theorem Insert_then_Erase_exact [Inhabited T] (assign : T → V → T) {v : Vector T}
    {s : List T} (index : Nat) (value : V) (hex : v.Exact) (hs : v.contents = some s)
    (hb : v.Size_ < 2 ^ 31) (hidx : index ≤ v.Size_) :
    ∃ w, (v.Insert assign index value >>= fun u => u.Erase index) = .ok w ∧
      w.contents = some s ∧ w.Size_ = v.Size_ := by
  obtain ⟨u, cur, hu, _, huc, husize⟩ := Insert_exact assign index value hex hs hb hidx
  obtain ⟨w, hw, hwc, hwsize, _⟩ := Erase_of_contents huc index (by omega)
  refine ⟨w, by rw [hu, ok_bind, hw], ?_, by omega⟩
  rw [hwc, eraseIdx_take_cons_drop s index _ (by rw [(contents_eq_some hs).1]; exact hidx)]

theorem Copy_of_contents [Inhabited T] {v : Vector T} {s : List T}
    (hs : v.contents = some s) :
    ∃ w, Vector.Copy v = .ok w ∧ w.Size_ = v.Size_ ∧ w.Capacity_ = v.Capacity_ ∧
      w.contents = some s := by
  obtain ⟨hlen, hbuf⟩ := contents_eq_some hs
  by_cases h0 : 0 = v.Size_
  · refine ⟨{ Size_ := v.Size_, Capacity_ := v.Capacity_, buffer := none }, ?_, rfl, rfl, ?_⟩
    · unfold Vector.Copy
      rw [if_pos h0, ← h0]
      rfl
    · have : s = [] := List.eq_nil_of_length_eq_zero (by omega)
      simp [Vector.contents, ← h0, this]
  · rcases hbuf with ⟨_, hz⟩ | ⟨slots, hsome, hle, hs'⟩
    · omega
    · obtain ⟨r, hr, hrlen, hin, _⟩ :=
        forUp_copySlot (valueAssign : T → T → T) slots v.Size_ 0 (newArray v.Size_)
          (by omega) (by simp [newArray])
      refine ⟨{ Size_ := v.Size_, Capacity_ := v.Capacity_, buffer := some r }, ?_, rfl, rfl, ?_⟩
      · unfold Vector.Copy
        dsimp only
        rw [if_neg h0, hsome, hr, ok_bind]
        rfl
      · have hrl : r.length = v.Size_ := by simpa [newArray] using hrlen
        rw [contents_of_slots r rfl (by show v.Size_ ≤ r.length; omega), hs']
        show some (List.take v.Size_ r) = _
        congr 1
        apply List.ext_getElem?
        intro j
        by_cases hj : j < v.Size_
        · obtain ⟨d, x, _, hx, hrj⟩ := hin j (Nat.zero_le j) (by omega)
          rw [List.getElem?_take_of_lt hj, List.getElem?_take_of_lt hj, hrj, hx]
          rfl
        · rw [List.getElem?_take_eq_none (Nat.le_of_not_lt hj),
            List.getElem?_take_eq_none (Nat.le_of_not_lt hj)]

theorem equalFrom_same_contents (eq : T → T → Bool) (hrefl : ∀ a, eq a a = true)
    {w v : Vector T} {s : List T} (hw : w.contents = some s) (hv : v.contents = some s) :
    ∀ (n i : Nat), i + n ≤ s.length → Vector.equalFrom eq w v n i = .ok true := by
  intro n
  induction n with
  | zero =>
    intro i _
    rfl
  | succ n ih =>
    intro i hi
    have his : i < s.length := by omega
    have hread : readAt w.buffer i = .ok s[i] := by
      have := Subscript_of_contents hw i his
      unfold Vector.Subscript at this
      rwa [if_pos (by rw [← (contents_eq_some hw).1]; exact his)] at this
    unfold Vector.equalFrom
    rw [hread, ok_bind, Subscript_of_contents hv i his, ok_bind, hrefl]
    exact ih (i + 1) (by omega)

theorem Copy_Equal_of_contents [Inhabited T] (eq : T → T → Bool) (hrefl : ∀ a, eq a a = true)
    {v : Vector T} {s : List T} (hs : v.contents = some s) :
    ∃ w, Vector.Copy v = .ok w ∧ w.Equal eq v = .ok true ∧ w.Size_ = v.Size_ ∧
      w.Capacity_ = v.Capacity_ := by
  obtain ⟨w, hw, hsize, hcap, hwc⟩ := Copy_of_contents hs
  refine ⟨w, hw, ?_, hsize, hcap⟩
  unfold Vector.Equal
  rw [if_neg (by rw [hsize]; exact fun h => h rfl)]
  exact equalFrom_same_contents eq hrefl hwc hs w.Size_ 0
    (by rw [(contents_eq_some hwc).1]; omega)

/-! ## Appending to a default-constructed vector (C1, C2) -/

theorem Default_HoldsPushed : (Vector.Default : Vector T).HoldsPushed [] := by
  refine ⟨rfl, rfl, fun _ => rfl, fun h => absurd h (by simp)⟩

theorem PushBack_HoldsPushed [Inhabited T] {v : Vector T} {pushed : List T} (x : T)
    (hv : v.HoldsPushed pushed) (hb : pushed.length < 2 ^ 31) :
    ∃ w, v.PushBack valueAssign x = .ok w ∧ w.HoldsPushed (pushed ++ [x]) := by
  obtain ⟨hex, hs, hzero, hpos⟩ := hv
  have hsize : pushed.length = v.Size_ := (contents_eq_some hs).1
  obtain ⟨w, cur, hw, hwex, hwc, hwsize, hkeep, hgrow⟩ :=
    PushBack_exact (valueAssign : T → T → T) x hex hs (by omega)
  refine ⟨w, hw, hwex, hwc, fun h => absurd h (by simp), fun _ => ?_⟩
  have hle := Exact_contents_size_le hex hs
  rw [List.length_append, List.length_singleton, hsize]
  by_cases heq : v.Size_ = v.Capacity_
  · exact hgrow heq
  · have hlt : v.Size_ < v.Capacity_ := by omega
    rw [hkeep hlt]
    have hp : 0 < pushed.length := by
      by_contra h0
      have := hzero (by omega)
      omega
    have := hpos hp
    rw [hsize] at this
    exact SmallestPowerOfTwoGE_succ this hlt

theorem PushBackAll_HoldsPushed [Inhabited T] (xs : List T) :
    ∀ (v : Vector T) (pushed : List T), v.HoldsPushed pushed →
      pushed.length + xs.length ≤ 2 ^ 31 →
      ∃ w, Vector.PushBackAll xs v = .ok w ∧ w.HoldsPushed (pushed ++ xs) := by
  induction xs with
  | nil =>
    intro v pushed hv _
    exact ⟨v, rfl, by simpa using hv⟩
  | cons x rest ih =>
    intro v pushed hv hb
    rw [List.length_cons] at hb
    obtain ⟨w, hw, hwp⟩ := PushBack_HoldsPushed x hv (by omega)
    obtain ⟨u, hu, hup⟩ := ih w (pushed ++ [x]) hwp (by simp; omega)
    refine ⟨u, ?_, by simpa using hup⟩
    show (v.PushBack valueAssign x >>= Vector.PushBackAll rest) = _
    rw [hw, ok_bind, hu]

/-- C1. A default-constructed vector that receives `PushBack(x_1)`, ...,
`PushBack(x_n)` in this order, `n` at most `2 ^ 31`, ends with `Size() == n`,
with `Capacity()` zero when `n` is zero and otherwise the smallest power of two
that is at least `n`, and with `x_{i+1}` at every index `i < n`. -/
theorem pushBack_sequence_from_default [Inhabited T] (xs : List T)
    (hn : xs.length ≤ 2 ^ 31) :
    ∃ v, Vector.PushBackAll xs (Vector.Default : Vector T) = .ok v ∧
      v.Size = xs.length ∧
      (xs.length = 0 → v.Capacity = 0) ∧
      (0 < xs.length → SmallestPowerOfTwoGE v.Capacity xs.length) ∧
      ∀ (i : Nat) (hi : i < xs.length), v.Subscript i = .ok xs[i] := by
  obtain ⟨v, hv, hex, hs, hzero, hpos⟩ :=
    PushBackAll_HoldsPushed xs (Vector.Default : Vector T) [] Default_HoldsPushed
      (by simpa using hn)
  rw [List.nil_append] at hs hzero hpos
  exact ⟨v, hv, (contents_eq_some hs).1.symm, hzero, hpos,
    fun i hi => Subscript_of_contents hs i hi⟩

/-- A run of C1 on the three values of the test `TestPushBack`. -/
theorem pushBack_sequence_from_default_witness :
    [1, 2, 3].length ≤ 2 ^ 31 ∧
      ∃ v, Vector.PushBackAll [1, 2, 3] (Vector.Default : Vector Nat) = .ok v ∧
        v.Size = [1, 2, 3].length ∧
        ([1, 2, 3].length = 0 → v.Capacity = 0) ∧
        (0 < [1, 2, 3].length → SmallestPowerOfTwoGE v.Capacity [1, 2, 3].length) ∧
        ∀ (i : Nat) (hi : i < [1, 2, 3].length), v.Subscript i = .ok [1, 2, 3][i] :=
  ⟨by decide, pushBack_sequence_from_default [1, 2, 3] (by decide)⟩

/-- C2. The run `Vector<int> t(10, 1); t.PushBack(1);` of the test
`TestPushBack`: the constructor returns a vector of size 10 and capacity 16
whose block has 10 slots, `ReserveIfNeeded` reserves nothing because the size
differs from the capacity, and the assignment `buffer[10] = value` is outside
the block. -/
theorem pushBack_after_fill_ten_leaves_block :
    ∃ t : Vector Nat, Vector.Fill valueAssign 10 1 = .ok t ∧ Reachable t ∧
      t.Size = 10 ∧ t.Capacity = 16 ∧ t.slotCount = some 10 ∧
      t.contents = some [1, 1, 1, 1, 1, 1, 1, 1, 1, 1] ∧
      t.ReserveIfNeeded = .ok t ∧
      t.PushBack valueAssign 1 = .error .InvalidAccess :=
  ⟨_, rfl, Reachable.fill valueAssign 10 1 _ rfl, rfl, rfl, rfl, rfl, rfl, rfl⟩

/-! ## The sized constructor and the block it allocates (C3, C4) -/

/-- For `n` at most `2 ^ 31` the constructor `Vector(n)` returns a vector with
`Size() == n`, with `Capacity()` zero when `n` is zero and otherwise the
smallest power of two that is at least `n`; no slot of its block has been
written, so every index below `n` reads what `new T[n]` left there. -/
theorem Sized_detail [Inhabited T] (n : Nat) (hn : n ≤ 2 ^ 31) :
    ∃ v : Vector T, Vector.Sized n = .ok v ∧ v.Size = n ∧
      (n = 0 → v.Capacity = 0) ∧
      (0 < n → SmallestPowerOfTwoGE v.Capacity n) ∧
      ∀ i, i < n → v.Subscript i = .ok default := by
  by_cases h0 : 0 = n
  · subst h0
    exact ⟨{ Size_ := 0, Capacity_ := 0, buffer := none }, rfl, rfl, fun _ => rfl,
      fun h => absurd h (by decide), fun i hi => absurd hi (by omega)⟩
  · obtain ⟨c, hc, hcs⟩ := NextPowerOfTwo_spec n hn
    refine ⟨{ Size_ := n, Capacity_ := c, buffer := some (newArray n) }, ?_, rfl,
      fun h => absurd h.symm h0, fun _ => hcs, ?_⟩
    · unfold Vector.Sized
      rw [if_neg h0, hc, ok_bind, if_neg h0]
      rfl
    · intro i hi
      unfold Vector.Subscript
      rw [if_pos hi, readAt_some_of_lt (by simpa [newArray] using hi)]
      simp [newArray]

/-- C3. The run `Vector<int> v(8); v[i];` of the test
`TestPrimitiveConstructors`: the constructor sets size 8 and capacity 8 and
allocates `new int[8]`, which writes no slot.  Whatever value `held` the
memory of the block holds, every `v[i]` with `i < 8` reads `held`: the
element is the default value 0 of `int` only when the memory happens to hold
0. -/
theorem sized_constructor_reads_unwritten_slots (held : Nat) :
    ∃ v : Vector Nat, @Vector.Sized Nat (slotsHolding held) 8 = .ok v ∧
      @Reachable Nat (slotsHolding held) v ∧ v.Size = 8 ∧ v.Capacity = 8 ∧
      v.slotCount = some 8 ∧ v.contents = some (List.replicate 8 held) ∧
      ∀ i, i < 8 → v.Subscript i = .ok held := by
  refine ⟨_, rfl, @Reachable.sized Nat (slotsHolding held) 8 _ rfl, rfl, rfl, rfl, rfl, ?_⟩
  intro i hi
  obtain ⟨w, hw, _, _, _, hread⟩ := @Sized_detail Nat (slotsHolding held) 8 (by decide)
  cases hw
  exact hread i hi

/-- C4. The state that `Vector<int>(3)` returns has capacity 4 and a block of 3
slots, and the state that `Clear` leaves after `Vector<int>(8, 1)` has capacity
8 and no block: neither has a block of exactly `Capacity()` slots. -/
theorem block_differs_from_capacity :
    (∃ v : Vector Nat, Vector.Sized 3 = .ok v ∧ Reachable v ∧ v.Capacity = 4 ∧
        v.slotCount = some 3 ∧ ¬ v.BufferMatchesCapacity) ∧
      (∃ v : Vector Nat, Vector.Fill valueAssign 8 1 = .ok v ∧ Reachable v.Clear ∧
        v.Clear.Capacity = 8 ∧ v.Clear.buffer = none ∧ ¬ v.Clear.BufferMatchesCapacity) :=
  ⟨⟨_, rfl, Reachable.sized 3 _ rfl, rfl, rfl, by decide⟩,
    ⟨_, rfl, Reachable.clear _ (Reachable.fill valueAssign 8 1 _ rfl), rfl, rfl, by decide⟩⟩

/-! ## The relation between size and capacity (C5) -/

/-- C5. In every state a constructor returns or a public operation that returns
leaves behind, `Size()` is at most `Capacity()`. -/
theorem reachable_size_le_capacity {T : Type} [Inhabited T] (v : Vector T)
    (h : Reachable v) : v.Size ≤ v.Capacity := by
  unfold Vector.Size Vector.Capacity
  induction h with
  | default => exact Nat.le_refl 0
  | sized size v hv =>
    obtain ⟨hs, hc | hc, _⟩ := Sized_ok hv
    · omega
    · have := NextPowerOfTwo_ok_ge hc.2
      omega
  | fill assign size value v hv =>
    obtain ⟨hs, hc | hc⟩ := Fill_ok hv
    · omega
    · have := NextPowerOfTwo_ok_ge hc.2
      omega
  | copyFrom assign other v _ hv ih =>
    obtain ⟨hs, hc⟩ := CopyFrom_ok hv
    omega
  | copy other v _ hv ih =>
    obtain ⟨hs, hc⟩ := Copy_ok hv
    omega
  | initList assign other v hv =>
    obtain ⟨hs, hc | hc⟩ := InitList_ok hv
    · rw [hs, hc.1]; exact Nat.zero_le _
    · have := NextPowerOfTwo_ok_ge hc.2
      omega
  | moveFromTarget assign other r _ hr ih =>
    obtain ⟨hs, hc, _⟩ := MoveFrom_ok hr
    omega
  | moveFromSource assign other r _ hr ih =>
    obtain ⟨_, _, ho⟩ := MoveFrom_ok hr
    rw [ho]
    exact Nat.zero_le _
  | moveTarget other _ ih => exact ih
  | moveSource other _ ih => exact Nat.le_refl 0
  | copyAssignFrom assign self other v _ _ hv _ ih =>
    obtain ⟨hs, hc⟩ := CopyAssignFrom_ok hv
    omega
  | copyAssign self other v _ _ hv _ ih =>
    obtain ⟨hs, hc⟩ := CopyAssign_ok hv
    omega
  | copyAssignSelf self v _ hv ih =>
    rw [CopyAssign_self hv]
    exact ih
  | moveAssignFromTarget assign self other r _ _ hr _ ih =>
    obtain ⟨hs, hc, _⟩ := MoveAssignFrom_ok hr
    omega
  | moveAssignFromSource assign self other r _ _ hr _ ih =>
    obtain ⟨_, _, ho⟩ := MoveAssignFrom_ok hr
    rw [ho]
    exact Nat.zero_le _
  | moveAssignTarget self other _ _ _ ih => exact ih
  | moveAssignSource self other _ _ _ ih => exact Nat.zero_le _
  | moveAssignSelf self _ ih => exact ih
  | clear self _ ih => exact Nat.zero_le _
  | reserve self newCapacity v _ hv ih =>
    have h1 := (Reserve_ok hv).1
    have h2 := (Reserve_capacity_ge hv).2
    omega
  | resize self newSize v _ hv ih =>
    obtain ⟨hs, hc, _⟩ := Resize_ok hv
    omega
  | pushBack assign self value v _ hv ih =>
    obtain ⟨ready, hready, hs, hc, _⟩ := PushBack_ok hv
    have := (ReserveIfNeeded_room ih hready).1
    omega
  | popBack self v _ hv ih =>
    obtain ⟨_, hs, hc, _⟩ := PopBack_ok hv
    omega
  | emplaceBack self made v _ hv ih =>
    obtain ⟨ready, hready, hs, hc, _⟩ := EmplaceBack_ok hv
    have := (ReserveIfNeeded_room ih hready).1
    omega
  | swapSelf self other _ _ _ ih => exact ih
  | swapOther self other _ _ ih _ => exact ih
  | insert assign self index value v _ hv ih =>
    obtain ⟨_, ready, hready, hs, hc, _⟩ := Insert_ok hv
    have := (ReserveIfNeeded_room ih hready).1
    omega
  | erase self index v _ hv ih =>
    obtain ⟨_, hs, hc, _⟩ := Erase_ok hv
    omega
  | subscriptAssign assign self index value v _ hv ih =>
    obtain ⟨_, hs, hc, _⟩ := SubscriptAssign_ok hv
    omega
  | beginAssign assign self offset value v _ hv ih =>
    obtain ⟨hs, hc, _⟩ := BeginAssign_ok hv
    omega

/-- A run of C5 on the state that `Vector<int>(7)` returns. -/
theorem reachable_size_le_capacity_witness :
    Reachable ({ Size_ := 7, Capacity_ := 8, buffer := some [0, 0, 0, 0, 0, 0, 0] } : Vector Nat) ∧
      ({ Size_ := 7, Capacity_ := 8, buffer := some [0, 0, 0, 0, 0, 0, 0] } : Vector Nat).Size ≤
        ({ Size_ := 7, Capacity_ := 8, buffer := some [0, 0, 0, 0, 0, 0, 0] } : Vector Nat).Capacity :=
  ⟨Reachable.sized 7 _ rfl, reachable_size_le_capacity _ (Reachable.sized 7 _ rfl)⟩

/-! ## Insert and Erase (C6, C7, C8) -/

/-- C6. The run `Vector<int> t(3); t.Insert(0, 1);`: the vector holds
`[0, 0, 0]` in a block of 3 slots with capacity 4, nothing is reserved, and the
first shift `buffer[3] = buffer[2]` is outside the block. -/
theorem insert_after_sized_three_leaves_block :
    ∃ t : Vector Nat, Vector.Sized 3 = .ok t ∧ Reachable t ∧
      t.contents = some [0, 0, 0] ∧ t.Capacity = 4 ∧ t.slotCount = some 3 ∧
      t.Insert valueAssign 0 1 = .error .InvalidAccess ∧
      t.Insert valueAssign 3 1 = .error .InvalidAccess :=
  ⟨_, rfl, Reachable.sized 3 _ rfl, rfl, rfl, rfl, rfl, rfl⟩

/-- An index at or past `Size()` stops `Erase` on the assertion
"Out of bounds". -/
theorem Erase_OutOfBounds (v : Vector T) (i : Nat) (hi : v.Size_ ≤ i) :
    v.Erase i = .error .OutOfBounds := by
  unfold Vector.Erase
  rw [if_neg (by omega)]

/-- C7. The run `Vector<int> v(3, 0); v.Resize(4); v.Erase(0);`: the
constructor writes the three slots of its block, `Resize(4)` finds the
capacity 4 sufficient and sets the size to 4 over the block of 3 slots, and
the last round `buffer[2] = buffer[3]` of the loop of `Erase(0)` reads outside
the block, whatever value `held` a fresh slot holds; `Erase(2)` reads the same
slot in its only round. -/
theorem erase_after_resize_leaves_block (held : Nat) :
    ∃ v : Vector Nat,
      (@Vector.Fill Nat Nat (slotsHolding held) valueAssign 3 0 >>= fun t =>
        @Vector.Resize Nat (slotsHolding held) t 4) = .ok v ∧
      @Reachable Nat (slotsHolding held) v ∧
      v.Size = 4 ∧ v.Capacity = 4 ∧ v.slotCount = some 3 ∧
      v.Erase 0 = .error .InvalidAccess ∧ v.Erase 2 = .error .InvalidAccess :=
  ⟨_, rfl, @Reachable.resize Nat (slotsHolding held) _ 4 _
    (@Reachable.fill Nat Nat (slotsHolding held) valueAssign 3 0 _ rfl) rfl, rfl, rfl, rfl, rfl, rfl⟩

/-- C8. The run `Vector<int> t(5, 2); t.Insert(2, 7); t.Erase(2);`: the vector
holds five values in a block of 5 slots with capacity 8, and the `Insert` faults
on `buffer[5] = buffer[4]`, so no `Erase` follows. -/
theorem insert_then_erase_after_fill_five_leaves_block :
    ∃ t : Vector Nat, Vector.Fill valueAssign 5 2 = .ok t ∧ Reachable t ∧
      t.contents = some [2, 2, 2, 2, 2] ∧ t.Capacity = 8 ∧ t.slotCount = some 5 ∧
      (t.Insert valueAssign 2 7 >>= fun u => u.Erase 2) = .error .InvalidAccess :=
  ⟨_, rfl, Reachable.fill valueAssign 5 2 _ rfl, rfl, rfl, rfl, rfl⟩

/-! ## Indexing and copying (C9, C10) -/

/-- C9. The run `Vector<int> v(3); v.Resize(4); v[3];`: `Resize(4)` reserves
nothing since 4 is not above the capacity 4, the size becomes 4 over a block of
3 slots, the assertion of `operator[]` passes for the index 3 and the read
`buffer[3]` is outside the block.  After `Vector<int> w(8, 1); w.Clear();
w.Resize(4);` the read `w[3]` goes through `nullptr`. -/
theorem subscript_below_size_leaves_block :
    (∃ v : Vector Nat, (Vector.Sized 3 >>= fun t => t.Resize 4) = .ok v ∧ Reachable v ∧
        v.Size = 4 ∧ v.slotCount = some 3 ∧ v.Subscript 3 = .error .InvalidAccess ∧
        v.Subscript 4 = .error .OutOfBounds) ∧
      (∃ w : Vector Nat, (Vector.Fill valueAssign 8 1 >>= fun t => t.Clear.Resize 4) = .ok w ∧
        w.Size = 4 ∧ w.buffer = none ∧ w.Subscript 3 = .error .InvalidAccess) :=
  ⟨⟨_, rfl, Reachable.resize _ 4 _ (Reachable.sized 3 _ rfl) rfl, rfl, rfl, rfl, rfl⟩,
    ⟨_, rfl, rfl, rfl, rfl⟩⟩

/-- C10. The run `Vector<int> v(3); v.Resize(4); Vector<int> w(v);`: the copy
constructor allocates 4 slots and its loop reads `other.buffer[3]`, outside the
block of 3 slots that `v` owns. -/
theorem copy_after_resize_leaves_block :
    ∃ v : Vector Nat, (Vector.Sized 3 >>= fun t => t.Resize 4) = .ok v ∧ Reachable v ∧
      v.Size = 4 ∧ v.Capacity = 4 ∧ v.slotCount = some 3 ∧
      Vector.Copy v = .error .InvalidAccess :=
  ⟨_, rfl, Reachable.resize _ 4 _ (Reachable.sized 3 _ rfl) rfl, rfl, rfl, rfl, rfl⟩
/-! ## Copy assignment, Reserve, Resize and comparison on vectors whose elements exist -/

theorem readAt_of_contents {v : Vector T} {s : List T} (hs : v.contents = some s)
    (i : Nat) (hi : i < s.length) : readAt v.buffer i = .ok s[i] := by
  have := Subscript_of_contents hs i hi
  unfold Vector.Subscript at this
  rwa [if_pos (by rw [← (contents_eq_some hs).1]; exact hi)] at this

theorem copy_loop_of_contents [Inhabited T] {v : Vector T} {s : List T}
    (hs : v.contents = some s) :
    ∃ r, forUp (copySlot valueAssign v.buffer) v.Size_ 0
        (some (newArray v.Size_ : List T)) = .ok (some r) ∧
      r.length = v.Size_ ∧ r = s := by
  obtain ⟨hlen, hbuf⟩ := contents_eq_some hs
  rcases hbuf with ⟨_, h0⟩ | ⟨slots, hsome, hle, hs'⟩
  · have hnil : s = [] := List.eq_nil_of_length_eq_zero (by omega)
    refine ⟨[], ?_, by rw [h0]; rfl, hnil.symm⟩
    rw [h0]
    rfl
  · obtain ⟨r, hr, hrlen, hin, _⟩ :=
      forUp_copySlot (valueAssign : T → T → T) slots v.Size_ 0 (newArray v.Size_)
        (by omega) (by simp [newArray])
    have hrl : r.length = v.Size_ := by simpa [newArray] using hrlen
    refine ⟨r, by rw [hsome]; exact hr, hrl, ?_⟩
    rw [hs']
    apply List.ext_getElem?
    intro j
    by_cases hj : j < v.Size_
    · obtain ⟨d, x, _, hx, hrj⟩ := hin j (Nat.zero_le j) (by omega)
      rw [List.getElem?_take_of_lt hj, hrj, hx]
      rfl
    · rw [List.getElem?_take_eq_none (Nat.le_of_not_lt hj),
        List.getElem?_eq_none (by omega)]

theorem CopyAssign_of_contents [Inhabited T] (self : Vector T) {v : Vector T} {s : List T}
    (hs : v.contents = some s) :
    ∃ u, Vector.CopyAssign false self v = .ok u ∧ u.Size_ = v.Size_ ∧
      u.Capacity_ = v.Capacity_ ∧ u.contents = some s := by
  obtain ⟨r, hr, hrl, hrs⟩ := copy_loop_of_contents hs
  refine ⟨{ Size_ := v.Size_, Capacity_ := v.Capacity_, buffer := some r }, ?_, rfl, rfl, ?_⟩
  · unfold Vector.CopyAssign
    simp only [Bool.false_eq_true, if_false]
    rw [hr, ok_bind]
    rfl
  · rw [contents_of_slots r rfl (by show v.Size_ ≤ r.length; omega)]
    show some (List.take v.Size_ r) = _
    rw [← hrl, List.take_length, hrs]

theorem CopyAssign_Equal_of_contents [Inhabited T] (eq : T → T → Bool)
    (hrefl : ∀ a, eq a a = true) (self : Vector T) {v : Vector T} {s : List T}
    (hs : v.contents = some s) :
    ∃ u, Vector.CopyAssign false self v = .ok u ∧ u.Equal eq v = .ok true ∧
      u.Size_ = v.Size_ ∧ u.Capacity_ = v.Capacity_ := by
  obtain ⟨u, hu, hsize, hcap, huc⟩ := CopyAssign_of_contents self hs
  refine ⟨u, hu, ?_, hsize, hcap⟩
  unfold Vector.Equal
  rw [if_neg (by rw [hsize]; exact fun h => h rfl)]
  exact equalFrom_same_contents eq hrefl huc hs u.Size_ 0
    (by rw [(contents_eq_some huc).1]; omega)

theorem Reserve_of_contents [Inhabited T] {v : Vector T} {s : List T} (n : Nat)
    (hs : v.contents = some s) (hle : v.Size_ ≤ v.Capacity_) (hn : n ≤ 2 ^ 31) :
    ∃ u, v.Reserve n = .ok u ∧ u.Size_ = v.Size_ ∧ u.contents = some s ∧
      (n ≤ v.Capacity_ → u = v) ∧
      (v.Capacity_ < n → SmallestPowerOfTwoGE u.Capacity_ n) := by
  by_cases hgt : v.Capacity_ < n
  · obtain ⟨c, r, hc, hres, hrlen, hrtake, _⟩ := Reserve_grow hs hle hgt hn
    have hcs := NextPowerOfTwo_ok_smallest hc
    refine ⟨_, hres, rfl, ?_, fun h => absurd hgt (by omega), fun _ => hcs⟩
    have hcn := hcs.2.1
    rw [contents_of_slots r rfl (by show v.Size_ ≤ r.length; omega)]
    show some (List.take v.Size_ r) = _
    rw [hrtake]
  · refine ⟨v, ?_, rfl, hs, fun _ => rfl, fun h => absurd h hgt⟩
    unfold Vector.Reserve
    rw [if_neg (by omega)]
    rfl

theorem Resize_of_contents [Inhabited T] {v : Vector T} {s : List T} (n : Nat)
    (hs : v.contents = some s) (hle : v.Size_ ≤ v.Capacity_) (hn : n ≤ 2 ^ 31) :
    ∃ u, v.Resize n = .ok u ∧ u.Size_ = n ∧
      (n ≤ v.Capacity_ → u.Capacity_ = v.Capacity_) ∧
      (v.Capacity_ < n → SmallestPowerOfTwoGE u.Capacity_ n) ∧
      ∀ (i : Nat) (hi : i < s.length), i < n → u.Subscript i = .ok s[i] := by
  by_cases hgt : v.Capacity_ < n
  · obtain ⟨c, hc, hcs⟩ := NextPowerOfTwo_spec n hn
    have hcb : c ≤ 2 ^ 31 := SmallestPowerOfTwoGE_le_bound hcs hn
    have hnc := hcs.2.1
    obtain ⟨c', r, hc', hres, hrlen, hrtake, _⟩ := Reserve_grow hs hle (by omega) hcb
    have hcc : c' = c := by
      have h1 := NextPowerOfTwo_of_smallest (SmallestPowerOfTwoGE_self hcs) hcb
      rw [h1] at hc'
      exact (Except.ok.inj hc').symm
    subst hcc
    refine ⟨{ Size_ := n, Capacity_ := c', buffer := some r }, ?_, rfl,
      fun h => absurd hgt (by omega), fun _ => hcs, ?_⟩
    · unfold Vector.Resize
      rw [if_pos hgt, hc, ok_bind, hres, ok_bind]
      rfl
    · intro i hi hin
      have hsl := (contents_eq_some hs).1
      unfold Vector.Subscript
      rw [if_pos hin]
      show readAt (some r) i = _
      have hir : i < r.length := by omega
      rw [readAt_some_of_lt hir]
      congr 1
      have h1 : (List.take v.Size_ r)[i]? = s[i]? := by rw [hrtake]
      rw [List.getElem?_take_of_lt (by omega), List.getElem?_eq_getElem hir,
        List.getElem?_eq_getElem hi] at h1
      exact Option.some.inj h1
  · refine ⟨{ v with Size_ := n }, ?_, rfl, fun _ => rfl, fun h => absurd h hgt, ?_⟩
    · unfold Vector.Resize
      rw [if_neg (by omega)]
      rfl
    · intro i hi hin
      unfold Vector.Subscript
      rw [if_pos hin]
      exact readAt_of_contents hs i hi

theorem equalFrom_of_contents (eq : T → V → Bool) {v : Vector T} {w : Vector V}
    {s : List T} {t : List V} (hv : v.contents = some s) (hw : w.contents = some t)
    (hlen : s.length = t.length) :
    ∀ (n i : Nat), i + n = s.length →
      ∃ b, Vector.equalFrom eq v w n i = .ok b ∧
        (b = true ↔ ∀ (j : Nat) (h1 : j < s.length) (h2 : j < t.length), i ≤ j →
          eq s[j] t[j] = true) := by
  intro n
  induction n with
  | zero =>
    intro i hi
    exact ⟨true, rfl, by simp; intro j h1 _ h3; omega⟩
  | succ n ih =>
    intro i hi
    have his : i < s.length := by omega
    have hit : i < t.length := by omega
    obtain ⟨b, hb, hiff⟩ := ih (i + 1) (by omega)
    unfold Vector.equalFrom
    rw [readAt_of_contents hv i his, ok_bind, Subscript_of_contents hw i hit, ok_bind]
    cases hq : eq s[i] t[i]
    · refine ⟨false, by simp [pure, Except.pure], ?_⟩
      constructor
      · intro h; cases h
      · intro h
        have := h i his hit (Nat.le_refl i)
        rw [hq] at this
        cases this
    · refine ⟨b, by simpa using hb, ?_⟩
      rw [hiff]
      constructor
      · intro h j h1 h2 hij
        by_cases hji : j = i
        · subst hji; exact hq
        · exact h j h1 h2 (by omega)
      · intro h j h1 h2 hij
        exact h j h1 h2 (by omega)

theorem Equal_of_contents (eq : T → V → Bool) {v : Vector T} {w : Vector V}
    {s : List T} {t : List V} (hv : v.contents = some s) (hw : w.contents = some t) :
    ∃ b, v.Equal eq w = .ok b ∧ v.NotEqual eq w = .ok (!b) ∧
      (b = true ↔ v.Size_ = w.Size_ ∧
        ∀ (j : Nat) (h1 : j < s.length) (h2 : j < t.length), eq s[j] t[j] = true) := by
  have hsl := (contents_eq_some hv).1
  have htl := (contents_eq_some hw).1
  have key : ∃ b, v.Equal eq w = .ok b ∧
      (b = true ↔ v.Size_ = w.Size_ ∧
        ∀ (j : Nat) (h1 : j < s.length) (h2 : j < t.length), eq s[j] t[j] = true) := by
    by_cases hsz : v.Size_ = w.Size_
    · obtain ⟨b, hb, hiff⟩ := equalFrom_of_contents eq hv hw (by omega) v.Size_ 0 (by omega)
      refine ⟨b, ?_, ?_⟩
      · unfold Vector.Equal
        rw [if_neg (fun h => h hsz)]
        exact hb
      · rw [hiff]
        constructor
        · intro h
          exact ⟨hsz, fun j h1 h2 => h j h1 h2 (Nat.zero_le j)⟩
        · intro h j h1 h2 _
          exact h.2 j h1 h2
    · refine ⟨false, ?_, ?_⟩
      · unfold Vector.Equal
        rw [if_pos hsz]
        rfl
      · constructor
        · intro h; cases h
        · intro h; exact absurd h.1 hsz
  obtain ⟨b, hb, hiff⟩ := key
  refine ⟨b, hb, ?_, hiff⟩
  unfold Vector.NotEqual
  rw [hb, ok_bind]
  rfl

/-! ## Move construction, move assignment, copy assignment and Clear (C11, C12, C13, C14) -/

/-- C11. After the same-type move construction `w = Vector(std::move(v))` the
source has `Size() == 0` and `Capacity() == 0`, and `w` has the size, the
capacity and the buffer that `v` had, so the same element at every index. -/
theorem move_constructor_spec (v : Vector T) :
    (Vector.Move v).2.Size = 0 ∧ (Vector.Move v).2.Capacity = 0 ∧
      (Vector.Move v).1.Size = v.Size ∧ (Vector.Move v).1.Capacity = v.Capacity ∧
      (Vector.Move v).1.contents = v.contents ∧
      ∀ i, (Vector.Move v).1.Subscript i = v.Subscript i :=
  ⟨rfl, rfl, rfl, rfl, rfl, fun _ => rfl⟩

/-- C12. The run `Vector<int> v(8, 1); Vector<int> w; w = std::move(v);` of the
test `TestMoveAssign`: `w` takes the size 8, the capacity 8 and the elements of
`v`, and `v` is left with `Size() == 0` but `Capacity() == 8`, because the
`Clear` that ends the assignment does not write `Capacity_`. -/
theorem move_assign_keeps_source_capacity :
    ∃ v : Vector Nat, Vector.Fill valueAssign 8 1 = .ok v ∧
      (Vector.MoveAssign false Vector.Default v).1.Size = 8 ∧
      (Vector.MoveAssign false Vector.Default v).1.Capacity = 8 ∧
      (Vector.MoveAssign false Vector.Default v).1.contents = v.contents ∧
      (Vector.MoveAssign false Vector.Default v).2.Size = 0 ∧
      (Vector.MoveAssign false Vector.Default v).2.Capacity = 8 ∧
      (Vector.Move v).2.Capacity = 0 :=
  ⟨_, rfl, rfl, rfl, rfl, rfl, rfl, rfl⟩

/-- C13. The run `Vector<int> v(3); v.Resize(4); Vector<int> w; w = v;`: `v` has
size 4 over a block of 3 slots, and the loop of the copy assignment reads
`other.buffer[3]`, outside that block. -/
theorem copy_assign_after_resize_leaves_block :
    ∃ v : Vector Nat, (Vector.Sized 3 >>= fun t => t.Resize 4) = .ok v ∧ Reachable v ∧
      v.Size = 4 ∧ v.Capacity = 4 ∧ v.slotCount = some 3 ∧
      Vector.CopyAssign false Vector.Default v = .error .InvalidAccess ∧
      Vector.CopyAssign true v v = .ok v :=
  ⟨_, rfl, Reachable.resize _ 4 _ (Reachable.sized 3 _ rfl) rfl, rfl, rfl, rfl, rfl, rfl⟩

/-- C14. The run `Vector<int> v(8, 1); v.Clear();` of the test `TestClear`:
`Clear` leaves `Size() == 0` and no buffer, and `Capacity()` still 8. -/
theorem clear_keeps_capacity :
    ∃ v : Vector Nat, Vector.Fill valueAssign 8 1 = .ok v ∧ v.Capacity = 8 ∧
      v.Clear.Size = 0 ∧ v.Clear.buffer = none ∧ v.Clear.Capacity = 8 :=
  ⟨_, rfl, rfl, rfl, rfl, rfl⟩

/-! ## Reserve, Resize and the comparisons (C15, C16, C17) -/

/-- C15. The run `Vector<int> v(3); v.Resize(4); v.Reserve(5);`: `v` has size 4
and capacity 4 over a block of 3 slots, `Reserve(5)` allocates 8 slots and its
transfer loop reads `buffer[3]`, outside the old block. -/
theorem reserve_after_resize_leaves_block :
    ∃ v : Vector Nat, (Vector.Sized 3 >>= fun t => t.Resize 4) = .ok v ∧ Reachable v ∧
      v.Size = 4 ∧ v.Capacity = 4 ∧ v.slotCount = some 3 ∧
      v.Reserve 4 = .ok v ∧ v.Reserve 5 = .error .InvalidAccess :=
  ⟨_, rfl, Reachable.resize _ 4 _ (Reachable.sized 3 _ rfl) rfl, rfl, rfl, rfl, rfl, rfl⟩

/-- C16. The run `Vector<int> v(3); v.Resize(4); v.Resize(5);`: the first
`Resize` returns with size 4 over the block of 3 slots, the second calls
`Reserve(8)`, whose transfer loop reads `buffer[3]`, outside that block. -/
theorem resize_after_resize_leaves_block :
    ∃ v : Vector Nat, (Vector.Sized 3 >>= fun t => t.Resize 4) = .ok v ∧ Reachable v ∧
      v.Size = 4 ∧ v.Capacity = 4 ∧ v.slotCount = some 3 ∧
      v.Resize 5 = .error .InvalidAccess :=
  ⟨_, rfl, Reachable.resize _ 4 _ (Reachable.sized 3 _ rfl) rfl, rfl, rfl, rfl, rfl⟩

/-- C17. The run `Vector<int> v(3, 0); v.Resize(4); Vector<int> w(4, 0);
v == w;`: both constructors write every slot of their blocks, both sizes are
4, the first three pairs compare equal and the fourth round reads `buffer[3]`
of `v`, outside its block of 3 slots, whatever value `held` a fresh slot
holds; `v != w` runs the same comparison. -/
theorem equal_after_resize_leaves_block (held : Nat) :
    ∃ v w : Vector Nat,
      (@Vector.Fill Nat Nat (slotsHolding held) valueAssign 3 0 >>= fun t =>
        @Vector.Resize Nat (slotsHolding held) t 4) = .ok v ∧
      @Reachable Nat (slotsHolding held) v ∧
      @Vector.Fill Nat Nat (slotsHolding held) valueAssign 4 0 = .ok w ∧
      v.Size = 4 ∧ w.Size = 4 ∧ v.slotCount = some 3 ∧
      w.contents = some [0, 0, 0, 0] ∧
      v.Equal (fun a b => decide (a = b)) w = .error .InvalidAccess ∧
      v.NotEqual (fun a b => decide (a = b)) w = .error .InvalidAccess :=
  ⟨_, _, rfl, @Reachable.resize Nat (slotsHolding held) _ 4 _
    (@Reachable.fill Nat Nat (slotsHolding held) valueAssign 3 0 _ rfl) rfl, rfl, rfl, rfl, rfl, rfl,
    rfl, rfl⟩

/-! ## Capacity over a sequence of calls (C18) -/

theorem Reserve_of_rounded [Inhabited T] {self v : Vector T} {m c : Nat}
    (hc : NextPowerOfTwo m = .ok c) (hm : self.Capacity_ < m) (h : self.Reserve c = .ok v) :
    v.Size_ = self.Size_ ∧ NextPowerOfTwo m = .ok v.Capacity_ := by
  have hcs := NextPowerOfTwo_ok_smallest hc
  obtain ⟨hsize, hcase | hcase⟩ := Reserve_ok h
  · have := hcs.2.1
    omega
  · have hvs := NextPowerOfTwo_ok_smallest hcase.2
    have : v.Capacity_ = c := SmallestPowerOfTwoGE_unique hvs (SmallestPowerOfTwoGE_self hcs)
    rw [this]
    exact ⟨hsize, hc⟩

theorem Resize_detail [Inhabited T] {self v : Vector T} {n : Nat}
    (h : self.Resize n = .ok v) :
    v.Size_ = n ∧
      ((n ≤ self.Capacity_ ∧ v.Capacity_ = self.Capacity_ ∧ v.buffer = self.buffer) ∨
        (self.Capacity_ < n ∧ NextPowerOfTwo n = .ok v.Capacity_)) := by
  unfold Vector.Resize at h
  simp only [bind_eq_ok, pure_eq_ok] at h
  obtain ⟨g, hg, rfl⟩ := h
  refine ⟨rfl, ?_⟩
  show (n ≤ self.Capacity_ ∧ g.Capacity_ = self.Capacity_ ∧ g.buffer = self.buffer) ∨
    (self.Capacity_ < n ∧ NextPowerOfTwo n = .ok g.Capacity_)
  split at hg
  · rename_i hgt
    rw [bind_eq_ok] at hg
    obtain ⟨c, hc, hres⟩ := hg
    exact Or.inr ⟨hgt, (Reserve_of_rounded hc hgt hres).2⟩
  · rename_i hle
    rw [pure_eq_ok] at hg
    subst hg
    exact Or.inl ⟨Nat.le_of_not_lt hle, rfl, rfl⟩

theorem ReserveIfNeeded_detail [Inhabited T] {self v : Vector T}
    (hcap : self.Capacity_ ≤ 2 ^ 31) (h : self.ReserveIfNeeded = .ok v) :
    v.Size_ = self.Size_ ∧
      ((self.Size_ ≠ self.Capacity_ ∧ v = self) ∨
        (self.Size_ = self.Capacity_ ∧
          NextPowerOfTwo (self.Size_ + 1) = .ok v.Capacity_)) := by
  obtain ⟨hsize, hcase | hcase⟩ := ReserveIfNeeded_ok h
  · exact ⟨hsize, Or.inl hcase⟩
  · obtain ⟨heq, c, hc, hres⟩ := hcase
    have hmod : (self.Size_ + 1) % 2 ^ 32 = self.Size_ + 1 := Nat.mod_eq_of_lt (by omega)
    rw [hmod] at hc
    exact ⟨hsize, Or.inr ⟨heq, (Reserve_of_rounded hc (by omega) hres).2⟩⟩

theorem CapacityTracks_keep {v w : Vector T} {peak r : Nat} (hv : CapacityTracks v peak)
    (hcap : w.Capacity_ = v.Capacity_) (hsize : w.Size_ ≤ v.Capacity_)
    (hr : r ≤ v.Capacity_) : CapacityTracks w (max (max peak w.Size_) r) := by
  obtain ⟨_, hb, hshape⟩ := hv
  refine ⟨by omega, by omega, ?_⟩
  rw [hcap]
  rcases hshape with ⟨h0, hp⟩ | hs
  · exact Or.inl ⟨h0, by omega⟩
  · have hle := hs.2.1
    exact Or.inr ⟨hs.1, by omega, fun j hj => hs.2.2 j (by omega)⟩

theorem CapacityTracks_grow {v w : Vector T} {peak r m : Nat} (hv : CapacityTracks v peak)
    (hm : v.Capacity_ < m) (hc : NextPowerOfTwo m = .ok w.Capacity_) (hsize : w.Size_ ≤ m)
    (hr : r ≤ m) (hpm : w.Size_ = m ∨ r = m) :
    CapacityTracks w (max (max peak w.Size_) r) ∧ v.Capacity_ ≤ w.Capacity_ := by
  obtain ⟨_, hb, hshape⟩ := hv
  have hws := NextPowerOfTwo_ok_smallest hc
  have hmb : m ≤ 2 ^ 31 := ((NextPowerOfTwo_ok_iff m _).mp hc).1
  have hpeak : peak ≤ v.Capacity_ := by
    rcases hshape with ⟨_, hp⟩ | hs
    · omega
    · exact hs.2.1
  have hmax : max (max peak w.Size_) r = m := by omega
  have hmw := hws.2.1
  rw [hmax]
  exact ⟨⟨by omega, SmallestPowerOfTwoGE_le_bound hws hmb, Or.inr hws⟩, by omega⟩

theorem Call_run_tracks [Inhabited T] (assign : T → V → T) (c : Call T V) {v w : Vector T}
    {peak : Nat} (hv : CapacityTracks v peak) (h : c.run assign v = .ok w) :
    CapacityTracks w (max (max peak w.Size_) c.reserved) ∧ v.Capacity_ ≤ w.Capacity_ := by
  have hsc := hv.1
  have hcb := hv.2.1
  have push : ∀ {ready : Vector T}, v.ReserveIfNeeded = .ok ready →
      w.Size_ = (ready.Size_ + 1) % 2 ^ 32 → w.Capacity_ = ready.Capacity_ →
      CapacityTracks w (max (max peak w.Size_) 0) ∧ v.Capacity_ ≤ w.Capacity_ := by
    intro ready hready hs hc
    obtain ⟨hrs, hcase | hcase⟩ := ReserveIfNeeded_detail hcb hready
    · obtain ⟨hne, hrv⟩ := hcase
      rw [hrv] at hs hc
      have hmod : (v.Size_ + 1) % 2 ^ 32 = v.Size_ + 1 := Nat.mod_eq_of_lt (by omega)
      rw [hmod] at hs
      exact ⟨CapacityTracks_keep hv hc (by omega) (Nat.zero_le _), by omega⟩
    · obtain ⟨heq, hnp⟩ := hcase
      have hmod : (v.Size_ + 1) % 2 ^ 32 = v.Size_ + 1 := Nat.mod_eq_of_lt (by omega)
      rw [hrs, hmod] at hs
      rw [← hc] at hnp
      exact CapacityTracks_grow hv (by omega) hnp (by omega) (Nat.zero_le _) (Or.inl hs)
  cases c with
  | Reserve n =>
    obtain ⟨hsize, hcase | hcase⟩ := Reserve_ok h
    · obtain ⟨hle, hwv⟩ := hcase
      rw [hwv]
      exact ⟨CapacityTracks_keep hv rfl hsc hle, Nat.le_refl _⟩
    · exact CapacityTracks_grow hv hcase.1 hcase.2 (by omega) (Nat.le_refl _) (Or.inr rfl)
  | Resize n =>
    obtain ⟨hsize, hcase | hcase⟩ := Resize_detail h
    · exact ⟨CapacityTracks_keep hv hcase.2.1 (by omega) (Nat.zero_le _), by omega⟩
    · exact CapacityTracks_grow hv hcase.1 hcase.2 (by omega) (Nat.zero_le _) (Or.inl hsize)
  | PushBack value =>
    obtain ⟨ready, hready, hs, hc, _⟩ := PushBack_ok h
    exact push hready hs hc
  | EmplaceBack made =>
    obtain ⟨ready, hready, hs, hc, _⟩ := EmplaceBack_ok h
    exact push hready hs hc
  | PopBack =>
    obtain ⟨_, hs, hc, _⟩ := PopBack_ok h
    exact ⟨CapacityTracks_keep hv hc (by omega) (Nat.zero_le _), by omega⟩
  | Insert index value =>
    obtain ⟨_, ready, hready, hs, hc, _⟩ := Insert_ok h
    exact push hready hs hc
  | Erase index =>
    obtain ⟨_, hs, hc, _⟩ := Erase_ok h
    exact ⟨CapacityTracks_keep hv hc (by omega) (Nat.zero_le _), by omega⟩
  | SubscriptAssign index value =>
    obtain ⟨_, hs, hc, _⟩ := SubscriptAssign_ok h
    exact ⟨CapacityTracks_keep hv hc (by omega) (Nat.zero_le _), by omega⟩
  | BeginAssign offset value =>
    obtain ⟨hs, hc, _⟩ := BeginAssign_ok h
    exact ⟨CapacityTracks_keep hv hc (by omega) (Nat.zero_le _), by omega⟩

theorem runCalls_tracks [Inhabited T] (assign : T → V → T) (calls : List (Call T V)) :
    ∀ (v : Vector T) (peak : Nat) (r : Vector T × Nat), CapacityTracks v peak →
      runCalls assign calls v peak = .ok r →
      CapacityTracks r.1 r.2 ∧ v.Capacity_ ≤ r.1.Capacity_ := by
  induction calls with
  | nil =>
    intro v peak r hv h
    cases h
    exact ⟨hv, Nat.le_refl _⟩
  | cons c rest ih =>
    intro v peak r hv h
    have h' : (c.run assign v >>= fun w =>
        runCalls assign rest w (max (max peak w.Size_) c.reserved)) = .ok r := h
    rw [bind_eq_ok] at h'
    obtain ⟨w, hw, hrest⟩ := h'
    obtain ⟨hwt, hle⟩ := Call_run_tracks assign c hv hw
    obtain ⟨hrt, hle'⟩ := ih w _ r hwt hrest
    exact ⟨hrt, by omega⟩

theorem CapacityTracks_of_rounded {v : Vector T} {n : Nat} (hs : v.Size_ = n)
    (hnp : NextPowerOfTwo n = .ok v.Capacity_) : CapacityTracks v v.Size_ := by
  subst hs
  have hws := NextPowerOfTwo_ok_smallest hnp
  have hnb := ((NextPowerOfTwo_ok_iff _ _).mp hnp).1
  exact ⟨hws.2.1, SmallestPowerOfTwoGE_le_bound hws hnb, Or.inr hws⟩

theorem CapacityTracks_of_empty {v : Vector T} (hs : v.Size_ = 0) (hc : v.Capacity_ = 0) :
    CapacityTracks v v.Size_ :=
  ⟨by omega, by omega, Or.inl ⟨hc, hs⟩⟩

theorem FreshlyBuilt_tracks [Inhabited T] {v : Vector T} (hv : FreshlyBuilt v) :
    CapacityTracks v v.Size_ := by
  rcases hv with rfl | ⟨n, hn⟩ | ⟨V, assign, n, value, hn⟩ | ⟨V, assign, L, hL⟩
  · exact CapacityTracks_of_empty rfl rfl
  · obtain ⟨hs, hc | hc, _⟩ := Sized_ok hn
    · exact CapacityTracks_of_empty (by omega) hc.2
    · exact CapacityTracks_of_rounded hs hc.2
  · obtain ⟨hs, hc | hc⟩ := Fill_ok hn
    · exact CapacityTracks_of_empty (by omega) hc.2
    · exact CapacityTracks_of_rounded hs hc.2
  · obtain ⟨hs, hc | hc⟩ := InitList_ok hL
    · exact CapacityTracks_of_empty (by rw [hs, hc.1]; rfl) hc.2
    · exact CapacityTracks_of_rounded hs hc.2

/-- C18, as stated, fails.  (a) `Vector<int> w(10, 1); Vector<int> v(2, 1);
w = v;` is a public operation other than `Clear` and takes `Capacity()` of `w`
from 16 down to 2.  (b) `Vector<int> r; r.Reserve(10);` leaves `Size() == 0`
and `Capacity() == 16`, which is neither 0 nor the smallest power of two that is
at least the largest size reached, 0.  (c) A copy of that `r` starts with
`Size() == 0` and `Capacity() == 16`. -/
theorem capacity_follows_largest_size_counterexample :
    (∃ w v u : Vector Nat, Vector.Fill valueAssign 10 1 = .ok w ∧
        Vector.Fill valueAssign 2 1 = .ok v ∧ Vector.CopyAssign false w v = .ok u ∧
        w.Capacity = 16 ∧ u.Capacity = 2 ∧ u.Capacity < w.Capacity) ∧
      (∃ r : Vector Nat, (Vector.Default : Vector Nat).Reserve 10 = .ok r ∧ r.Size = 0 ∧
        r.Capacity = 16 ∧ r.Capacity ≠ 0 ∧ ¬ SmallestPowerOfTwoGE r.Capacity 0) ∧
      (∃ r c : Vector Nat, (Vector.Default : Vector Nat).Reserve 10 = .ok r ∧
        Vector.Copy r = .ok c ∧ c.Size = 0 ∧ c.Capacity = 16 ∧
        ¬ SmallestPowerOfTwoGE c.Capacity 0) :=
  ⟨⟨_, _, _, rfl, rfl, rfl, rfl, rfl, by decide⟩,
    ⟨_, rfl, rfl, rfl, by decide, fun h => absurd (h.2.2 0 (by decide)) (by decide)⟩,
    ⟨_, _, rfl, rfl, rfl, rfl, fun h => absurd (h.2.2 0 (by decide)) (by decide)⟩⟩

/-- C18, amended. For a vector built by the default, the sized, the fill or the
initializer-list constructor and every sequence of calls of `Reserve`, `Resize`,
`PushBack`, `EmplaceBack`, `PopBack`, `Insert`, `Erase` and element assignments
on it that all return: after the sequence `Capacity()` is zero or the smallest
power of two that is at least `peak`, the larger of the largest `Size()` reached
since construction and the largest argument passed to `Reserve`; it is not below
the capacity at construction; and no further such call that returns makes it
smaller. -/
theorem capacity_over_calls [Inhabited T] (assign : T → V → T) (v : Vector T)
    (hv : FreshlyBuilt v) (calls : List (Call T V)) (w : Vector T) (peak : Nat)
    (hrun : runCalls assign calls v v.Size = .ok (w, peak)) :
    (w.Capacity = 0 ∨ SmallestPowerOfTwoGE w.Capacity peak) ∧
      v.Capacity ≤ w.Capacity ∧
      ∀ (c : Call T V) (u : Vector T), c.run assign w = .ok u → w.Capacity ≤ u.Capacity := by
  obtain ⟨htr, hle⟩ := runCalls_tracks assign calls v v.Size_ (w, peak)
    (FreshlyBuilt_tracks hv) hrun
  refine ⟨?_, hle, fun c u hu => (Call_run_tracks assign c htr hu).2⟩
  rcases htr.2.2 with h0 | hs
  · exact Or.inl h0.1
  · exact Or.inr hs

/-- A run of the amended C18: `Vector<int> t; t.Reserve(3); t.PushBack(1);
t.Resize(5); t.PopBack();` ends with size 4 and capacity 8, the smallest power
of two that is at least 5. -/
theorem capacity_over_calls_witness :
    FreshlyBuilt (Vector.Default : Vector Nat) ∧
      runCalls valueAssign [Call.Reserve 3, Call.PushBack 1, Call.Resize 5, Call.PopBack]
          (Vector.Default : Vector Nat) (Vector.Default : Vector Nat).Size
        = .ok (callsTestVector, 5) ∧
      ((callsTestVector.Capacity = 0 ∨ SmallestPowerOfTwoGE callsTestVector.Capacity 5) ∧
        (Vector.Default : Vector Nat).Capacity ≤ callsTestVector.Capacity ∧
        ∀ (c : Call Nat Nat) (u : Vector Nat),
          c.run valueAssign callsTestVector = .ok u → callsTestVector.Capacity ≤ u.Capacity) :=
  ⟨Or.inl rfl, rfl,
    capacity_over_calls valueAssign Vector.Default (Or.inl rfl)
      [Call.Reserve 3, Call.PushBack 1, Call.Resize 5, Call.PopBack] callsTestVector 5 rfl⟩

/-! ## The shape of the capacity (C19) -/

theorem NextPowerOfTwo_ok_pow {x c : Nat} (h : NextPowerOfTwo x = .ok c) : ∃ k, c = 2 ^ k :=
  (NextPowerOfTwo_ok_smallest h).1

theorem Reserve_capacity_shape [Inhabited T] {self v : Vector T} {n : Nat}
    (h : self.Reserve n = .ok v) :
    v.Capacity_ = self.Capacity_ ∨ ∃ k, v.Capacity_ = 2 ^ k := by
  obtain ⟨_, hcase | hcase⟩ := Reserve_ok h
  · exact Or.inl (by rw [hcase.2])
  · exact Or.inr (NextPowerOfTwo_ok_pow hcase.2)

theorem Resize_capacity_shape [Inhabited T] {self v : Vector T} {n : Nat}
    (h : self.Resize n = .ok v) :
    v.Capacity_ = self.Capacity_ ∨ ∃ k, v.Capacity_ = 2 ^ k := by
  unfold Vector.Resize at h
  simp only [bind_eq_ok, pure_eq_ok] at h
  obtain ⟨g, hg, rfl⟩ := h
  show g.Capacity_ = self.Capacity_ ∨ ∃ k, g.Capacity_ = 2 ^ k
  split at hg
  · rw [bind_eq_ok] at hg
    obtain ⟨c, _, hres⟩ := hg
    exact Reserve_capacity_shape hres
  · rw [pure_eq_ok] at hg
    exact Or.inl (by rw [hg])

theorem ReserveIfNeeded_capacity_shape [Inhabited T] {self v : Vector T}
    (h : self.ReserveIfNeeded = .ok v) :
    v.Capacity_ = self.Capacity_ ∨ ∃ k, v.Capacity_ = 2 ^ k := by
  obtain ⟨_, hcase | hcase⟩ := ReserveIfNeeded_ok h
  · exact Or.inl (by rw [hcase.2])
  · obtain ⟨_, c, _, hres⟩ := hcase
    exact Reserve_capacity_shape hres

theorem shape_of_step {c d : Nat} (hc : c = 0 ∨ ∃ k, c = 2 ^ k)
    (hd : d = c ∨ ∃ k, d = 2 ^ k) : d = 0 ∨ ∃ k, d = 2 ^ k := by
  rcases hd with hd | hd
  · rw [hd]; exact hc
  · exact Or.inr hd

/-- C19. In every state a constructor returns or a public operation that returns
leaves behind, `Capacity()` is zero or a power of two. -/
theorem reachable_capacity_zero_or_power_of_two {T : Type} [Inhabited T] (v : Vector T)
    (h : Reachable v) : v.Capacity = 0 ∨ ∃ k, v.Capacity = 2 ^ k := by
  unfold Vector.Capacity
  induction h with
  | default => exact Or.inl rfl
  | sized size v hv =>
    obtain ⟨_, hc | hc, _⟩ := Sized_ok hv
    · exact Or.inl hc.2
    · exact Or.inr (NextPowerOfTwo_ok_pow hc.2)
  | fill assign size value v hv =>
    obtain ⟨_, hc | hc⟩ := Fill_ok hv
    · exact Or.inl hc.2
    · exact Or.inr (NextPowerOfTwo_ok_pow hc.2)
  | copyFrom assign other v _ hv ih =>
    rw [(CopyFrom_ok hv).2]; exact ih
  | copy other v _ hv ih =>
    rw [(Copy_ok hv).2]; exact ih
  | initList assign other v hv =>
    obtain ⟨_, hc | hc⟩ := InitList_ok hv
    · exact Or.inl hc.2
    · exact Or.inr (NextPowerOfTwo_ok_pow hc.2)
  | moveFromTarget assign other r _ hr ih =>
    rw [(MoveFrom_ok hr).2.1]; exact ih
  | moveFromSource assign other r _ hr ih =>
    rw [(MoveFrom_ok hr).2.2]; exact ih
  | moveTarget other _ ih => exact ih
  | moveSource other _ ih => exact Or.inl rfl
  | copyAssignFrom assign self other v _ _ hv _ ih =>
    rw [(CopyAssignFrom_ok hv).2]; exact ih
  | copyAssign self other v _ _ hv _ ih =>
    rw [(CopyAssign_ok hv).2]; exact ih
  | copyAssignSelf self v _ hv ih =>
    rw [CopyAssign_self hv]; exact ih
  | moveAssignFromTarget assign self other r _ _ hr _ ih =>
    rw [(MoveAssignFrom_ok hr).2.1]; exact ih
  | moveAssignFromSource assign self other r _ _ hr _ ih =>
    rw [(MoveAssignFrom_ok hr).2.2]; exact ih
  | moveAssignTarget self other _ _ _ ih => exact ih
  | moveAssignSource self other _ _ _ ih => exact ih
  | moveAssignSelf self _ ih => exact ih
  | clear self _ ih => exact ih
  | reserve self newCapacity v _ hv ih => exact shape_of_step ih (Reserve_capacity_shape hv)
  | resize self newSize v _ hv ih => exact shape_of_step ih (Resize_capacity_shape hv)
  | pushBack assign self value v _ hv ih =>
    obtain ⟨ready, hready, _, hc, _⟩ := PushBack_ok hv
    rw [hc]; exact shape_of_step ih (ReserveIfNeeded_capacity_shape hready)
  | popBack self v _ hv ih =>
    rw [(PopBack_ok hv).2.2.1]; exact ih
  | emplaceBack self made v _ hv ih =>
    obtain ⟨ready, hready, _, hc, _⟩ := EmplaceBack_ok hv
    rw [hc]; exact shape_of_step ih (ReserveIfNeeded_capacity_shape hready)
  | swapSelf self other _ _ _ ih => exact ih
  | swapOther self other _ _ ih _ => exact ih
  | insert assign self index value v _ hv ih =>
    obtain ⟨_, ready, hready, _, hc, _⟩ := Insert_ok hv
    rw [hc]; exact shape_of_step ih (ReserveIfNeeded_capacity_shape hready)
  | erase self index v _ hv ih =>
    rw [(Erase_ok hv).2.2.1]; exact ih
  | subscriptAssign assign self index value v _ hv ih =>
    rw [(SubscriptAssign_ok hv).2.2.1]; exact ih
  | beginAssign assign self offset value v _ hv ih =>
    rw [(BeginAssign_ok hv).2.1]; exact ih

/-- A run of C19 on the state that `Vector<int>(9)` returns, of capacity 16. -/
theorem reachable_capacity_zero_or_power_of_two_witness :
    Reachable ({ Size_ := 9, Capacity_ := 16,
                 buffer := some [0, 0, 0, 0, 0, 0, 0, 0, 0] } : Vector Nat) ∧
      (({ Size_ := 9, Capacity_ := 16,
          buffer := some [0, 0, 0, 0, 0, 0, 0, 0, 0] } : Vector Nat).Capacity = 0 ∨
        ∃ k, ({ Size_ := 9, Capacity_ := 16,
                buffer := some [0, 0, 0, 0, 0, 0, 0, 0, 0] } : Vector Nat).Capacity = 2 ^ k) :=
  ⟨Reachable.sized 9 _ rfl, reachable_capacity_zero_or_power_of_two _ (Reachable.sized 9 _ rfl)⟩

/-! ## The initializer-list constructor (C20) -/

theorem assignEach_spec (assign : T → V → T) :
    ∀ (l : List V) (i : Nat) (slots : List T), i + l.length ≤ slots.length →
      i + l.length < 2 ^ 32 →
      ∃ r, assignEach assign l i (some slots) = .ok (some r) ∧ r.length = slots.length ∧
        (∀ j, i ≤ j → j < i + l.length →
          ∃ d x, slots[j]? = some d ∧ l[j - i]? = some x ∧ r[j]? = some (assign d x)) ∧
        (∀ j, j < i ∨ i + l.length ≤ j → r[j]? = slots[j]?) := by
  intro l
  induction l with
  | nil =>
    intro i slots _ _
    exact ⟨slots, rfl, rfl, fun j h1 h2 => absurd h2 (by simp; omega), fun _ _ => rfl⟩
  | cons x rest ih =>
    intro i slots hs hb
    rw [List.length_cons] at hs hb
    have hi : i < slots.length := by omega
    have hmod : (i + 1) % 2 ^ 32 = i + 1 := Nat.mod_eq_of_lt (by omega)
    obtain ⟨r, hr, hlen, hin, hout⟩ :=
      ih (i + 1) (slots.set i (assign slots[i] x)) (by simp; omega) (by omega)
    refine ⟨r, ?_, by simpa using hlen, ?_, ?_⟩
    · show (assignAt assign (some slots) i x >>= _) = _
      rw [assignAt_some_of_lt assign hi, ok_bind, hmod]
      exact hr
    · intro j h1 h2
      rw [List.length_cons] at h2
      by_cases hji : j = i
      · subst hji
        refine ⟨slots[j], x, List.getElem?_eq_getElem hi, by simp, ?_⟩
        rw [hout j (Or.inl (by omega)), List.getElem?_set_self hi]
      · obtain ⟨d, y, hd, hy, hrj⟩ := hin j (by omega) (by omega)
        refine ⟨d, y, ?_, ?_, hrj⟩
        · rw [← hd, List.getElem?_set_ne (by omega)]
        · obtain ⟨k, hk⟩ : ∃ k, j - i = k + 1 := ⟨j - i - 1, by omega⟩
          rw [hk, List.getElem?_cons_succ, ← hy]
          congr 1
          omega
    · intro j hj
      rw [List.length_cons] at hj
      rw [hout j (by omega), List.getElem?_set_ne (by omega)]

/-- C20. For a list `L` of at most `2 ^ 31` values the initializer-list
constructor returns a vector with `Size() == |L|`, with `Capacity()` zero when
`L` is empty and otherwise the smallest power of two that is at least `|L|`, and
with the `i`-th value of `L`, assigned by the element type's `operator=` to a
default-constructed slot, at every index `i < |L|`. -/
theorem initializer_list_constructor_spec [Inhabited T] (assign : T → V → T) (L : List V)
    (hL : L.length ≤ 2 ^ 31) :
    ∃ v : Vector T, Vector.InitList assign L = .ok v ∧ v.Size = L.length ∧
      (L.length = 0 → v.Capacity = 0) ∧
      (0 < L.length → SmallestPowerOfTwoGE v.Capacity L.length) ∧
      ∀ (i : Nat) (hi : i < L.length), v.Subscript i = .ok (assign default L[i]) := by
  have hmod : L.length % 2 ^ 32 = L.length := Nat.mod_eq_of_lt (by omega)
  by_cases h0 : 0 = L.length
  · have hnil : L = [] := List.eq_nil_of_length_eq_zero h0.symm
    subst hnil
    exact ⟨{ Size_ := 0, Capacity_ := 0, buffer := none }, rfl, rfl, fun _ => rfl,
      fun h => absurd h (by simp), fun i hi => absurd hi (by simp)⟩
  · obtain ⟨c, hc, hcs⟩ := NextPowerOfTwo_spec L.length hL
    obtain ⟨r, hr, hlen, hin, _⟩ :=
      assignEach_spec assign L 0 (newArray L.length) (by simp [newArray]) (by omega)
    refine ⟨{ Size_ := L.length, Capacity_ := c, buffer := some r }, ?_, rfl,
      fun h => absurd h.symm h0, fun _ => hcs, ?_⟩
    · unfold Vector.InitList
      dsimp only
      rw [hmod, if_neg h0, hc, ok_bind, if_neg h0, hr, ok_bind]
      rfl
    · intro i hi
      obtain ⟨d, x, hd, hx, hri⟩ := hin i (Nat.zero_le i) (by omega)
      have hdd : d = default := by
        have : (newArray L.length : List T)[i]? = some default := by
          simp [newArray, hi]
        rw [this] at hd
        exact (Option.some.inj hd).symm
      have hxx : x = L[i] := by
        rw [Nat.sub_zero, List.getElem?_eq_getElem hi] at hx
        exact (Option.some.inj hx).symm
      unfold Vector.Subscript
      rw [if_pos hi]
      show readAt (some r) i = _
      have hir : i < r.length := by rw [hlen]; simp [newArray, hi]
      rw [readAt_some_of_lt hir]
      have := List.getElem?_eq_getElem hir
      rw [hri] at this
      rw [← Option.some.inj this, hdd, hxx]

/-- A run of C20 on the list of the test `TestInitializerListConstructor`. -/
theorem initializer_list_constructor_spec_witness :
    [1, 2, 3, 4, 5].length ≤ 2 ^ 31 ∧
      ∃ v : Vector Nat, Vector.InitList valueAssign [1, 2, 3, 4, 5] = .ok v ∧
        v.Size = [1, 2, 3, 4, 5].length ∧
        ([1, 2, 3, 4, 5].length = 0 → v.Capacity = 0) ∧
        (0 < [1, 2, 3, 4, 5].length → SmallestPowerOfTwoGE v.Capacity [1, 2, 3, 4, 5].length) ∧
        ∀ (i : Nat) (hi : i < [1, 2, 3, 4, 5].length),
          v.Subscript i = .ok (valueAssign default [1, 2, 3, 4, 5][i]) :=
  ⟨by decide, initializer_list_constructor_spec valueAssign [1, 2, 3, 4, 5] (by decide)⟩

/-! ## PopBack and Swap (C21, C22) -/

/-- C21. `PopBack()` stops on the assertion "Vector is empty" exactly when
`Size()` is zero; otherwise it returns with `Size()` smaller by one, with
`Capacity()` as it was, and with every index below the new size reading as it
did before. -/
theorem popBack_spec (v : Vector T) :
    (v.PopBack = .error .VectorIsEmpty ↔ v.Size = 0) ∧
      (0 < v.Size → ∃ w, v.PopBack = .ok w ∧ w.Size = v.Size - 1 ∧
        w.Capacity = v.Capacity ∧ w.buffer = v.buffer ∧
        ∀ i, i < w.Size → w.Subscript i = v.Subscript i) := by
  unfold Vector.Size Vector.Capacity
  constructor
  · unfold Vector.PopBack
    by_cases hpos : v.Size_ > 0
    · rw [if_pos hpos]
      constructor
      · intro h; cases h
      · intro h; omega
    · rw [if_neg hpos]
      constructor
      · intro _; omega
      · intro _; rfl
  · intro hpos
    refine ⟨{ v with Size_ := v.Size_ - 1 }, ?_, rfl, rfl, rfl, ?_⟩
    · unfold Vector.PopBack
      rw [if_pos hpos]
      rfl
    · intro i hi
      have hi' : i < v.Size_ - 1 := hi
      unfold Vector.Subscript
      rw [if_pos hi', if_pos (by omega)]

/-- C22. After `t.Swap(w)` the vector `t` has the size, the capacity and the
buffer, hence the elements, that `w` had, and `w` those that `t` had; a second
`Swap` restores both. -/
theorem swap_spec (t w : Vector T) :
    (t.Swap w).1.Size = w.Size ∧ (t.Swap w).1.Capacity = w.Capacity ∧
      (t.Swap w).1.contents = w.contents ∧
      (∀ i, (t.Swap w).1.Subscript i = w.Subscript i) ∧
      (t.Swap w).2.Size = t.Size ∧ (t.Swap w).2.Capacity = t.Capacity ∧
      (t.Swap w).2.contents = t.contents ∧
      (∀ i, (t.Swap w).2.Subscript i = t.Subscript i) ∧
      (t.Swap w).1 = w ∧ (t.Swap w).2 = t ∧
      (t.Swap w).1.Swap (t.Swap w).2 = (t, w) :=
  ⟨rfl, rfl, rfl, fun _ => rfl, rfl, rfl, rfl, fun _ => rfl, rfl, rfl, rfl⟩

/-! ## PushBack after Clear (C23) -/

/-- C23. The run `Vector<int> v(8, 1); v.Clear(); v.PushBack(7);`: `Clear`
leaves size 0, capacity 8 and no buffer, `ReserveIfNeeded` reserves nothing
because the size differs from the capacity, and the assignment `buffer[0] =
value` goes through `nullptr`.  The same two calls on a default-constructed
vector return with size 1, capacity 1 and the value at index 0. -/
theorem pushBack_after_clear_leaves_block :
    (∃ v : Vector Nat, Vector.Fill valueAssign 8 1 = .ok v ∧ Reachable v.Clear ∧
        v.Clear.Size = 0 ∧ v.Clear.Capacity = 8 ∧ v.Clear.buffer = none ∧
        v.Clear.ReserveIfNeeded = .ok v.Clear ∧
        v.Clear.PushBack valueAssign 7 = .error .InvalidAccess) ∧
      (∃ w : Vector Nat, (Vector.Default : Vector Nat).Clear.PushBack valueAssign 7 = .ok w ∧
        w.Size = 1 ∧ w.Capacity = 1 ∧ w.Subscript 0 = .ok 7) :=
  ⟨⟨_, rfl, Reachable.clear _ (Reachable.fill valueAssign 8 1 _ rfl), rfl, rfl, rfl, rfl, rfl⟩,
    ⟨_, rfl, rfl, rfl, rfl⟩⟩

theorem PushBack_after_Clear_faults [Inhabited T] (assign : T → V → T) (v : Vector T)
    (value : V) (hcap : v.Capacity_ ≠ 0) :
    v.Clear.PushBack assign value = .error .InvalidAccess := by
  have hready : v.Clear.ReserveIfNeeded = .ok v.Clear := by
    unfold Vector.ReserveIfNeeded
    rw [if_neg (by show ¬ (0 = v.Capacity_); omega)]
    rfl
  unfold Vector.PushBack
  rw [hready, ok_bind]
  rfl

/-! ## The capacity across a single call (C24) -/

theorem ReserveIfNeeded_capacity [Inhabited T] {self v : Vector T}
    (h : self.ReserveIfNeeded = .ok v) :
    self.Capacity_ ≤ v.Capacity_ ∧ (self.Capacity_ < v.Capacity_ → self.Size_ = self.Capacity_) := by
  obtain ⟨_, hcase | hcase⟩ := ReserveIfNeeded_ok h
  · rw [hcase.2]
    exact ⟨Nat.le_refl _, fun hlt => absurd hlt (Nat.lt_irrefl _)⟩
  · obtain ⟨heq, c, _, hres⟩ := hcase
    exact ⟨(Reserve_capacity_ge hres).2, fun _ => heq⟩

/-- C24. For every vector and every single call of `Reserve`, `Resize`,
`PushBack`, `EmplaceBack`, `PopBack`, `Insert` or `Erase` (or an element
assignment) that returns, `Capacity()` after the call is at least `Capacity()`
before it, and it is larger only for `Reserve(n)` or `Resize(n)` with `n` above
the old capacity, or for a `PushBack`, `EmplaceBack` or `Insert` made while
`Size() == Capacity()`. -/
theorem capacity_across_call [Inhabited T] (assign : T → V → T) (c : Call T V)
    (v u : Vector T) (hrun : c.run assign v = .ok u) :
    v.Capacity ≤ u.Capacity ∧
      (v.Capacity < u.Capacity →
        (∃ n, (c = .Reserve n ∨ c = .Resize n) ∧ v.Capacity < n) ∨
        (((∃ x, c = .PushBack x) ∨ (∃ m, c = .EmplaceBack m) ∨ (∃ i x, c = .Insert i x)) ∧
          v.Size = v.Capacity)) := by
  unfold Vector.Size Vector.Capacity
  cases c with
  | Reserve n =>
    obtain ⟨_, hcase | hcase⟩ := Reserve_ok hrun
    · rw [hcase.2]
      exact ⟨Nat.le_refl _, fun hlt => absurd hlt (Nat.lt_irrefl _)⟩
    · have := NextPowerOfTwo_ok_ge hcase.2
      exact ⟨by omega, fun _ => Or.inl ⟨n, Or.inl rfl, hcase.1⟩⟩
  | Resize n =>
    obtain ⟨_, hcase | hcase⟩ := Resize_detail hrun
    · rw [hcase.2.1]
      exact ⟨Nat.le_refl _, fun hlt => absurd hlt (Nat.lt_irrefl _)⟩
    · have := NextPowerOfTwo_ok_ge hcase.2
      exact ⟨by omega, fun _ => Or.inl ⟨n, Or.inr rfl, hcase.1⟩⟩
  | PushBack value =>
    obtain ⟨ready, hready, _, hc, _⟩ := PushBack_ok hrun
    obtain ⟨hle, hlt⟩ := ReserveIfNeeded_capacity hready
    rw [hc]
    exact ⟨hle, fun h => Or.inr ⟨Or.inl ⟨value, rfl⟩, hlt h⟩⟩
  | EmplaceBack made =>
    obtain ⟨ready, hready, _, hc, _⟩ := EmplaceBack_ok hrun
    obtain ⟨hle, hlt⟩ := ReserveIfNeeded_capacity hready
    rw [hc]
    exact ⟨hle, fun h => Or.inr ⟨Or.inr (Or.inl ⟨made, rfl⟩), hlt h⟩⟩
  | PopBack =>
    rw [(PopBack_ok hrun).2.2.1]
    exact ⟨Nat.le_refl _, fun hlt => absurd hlt (Nat.lt_irrefl _)⟩
  | Insert index value =>
    obtain ⟨_, ready, hready, _, hc, _⟩ := Insert_ok hrun
    obtain ⟨hle, hlt⟩ := ReserveIfNeeded_capacity hready
    rw [hc]
    exact ⟨hle, fun h => Or.inr ⟨Or.inr (Or.inr ⟨index, value, rfl⟩), hlt h⟩⟩
  | Erase index =>
    rw [(Erase_ok hrun).2.2.1]
    exact ⟨Nat.le_refl _, fun hlt => absurd hlt (Nat.lt_irrefl _)⟩
  | SubscriptAssign index value =>
    rw [(SubscriptAssign_ok hrun).2.2.1]
    exact ⟨Nat.le_refl _, fun hlt => absurd hlt (Nat.lt_irrefl _)⟩
  | BeginAssign offset value =>
    rw [(BeginAssign_ok hrun).2.1]
    exact ⟨Nat.le_refl _, fun hlt => absurd hlt (Nat.lt_irrefl _)⟩

/-- A run of C24: `t.Resize(5)` on the vector left by `Vector<int> t;
t.Reserve(3); t.PushBack(1);`, of size 1 and capacity 4, returns with capacity
8. -/
theorem capacity_across_call_witness :
    (Call.Resize 5 : Call Nat Nat).run valueAssign resizeTestVector
        = .ok growTestVector ∧
      (resizeTestVector.Capacity ≤ growTestVector.Capacity ∧
        (resizeTestVector.Capacity < growTestVector.Capacity →
          (∃ n, ((Call.Resize 5 : Call Nat Nat) = .Reserve n ∨
              (Call.Resize 5 : Call Nat Nat) = .Resize n) ∧ resizeTestVector.Capacity < n) ∨
          (((∃ x, (Call.Resize 5 : Call Nat Nat) = .PushBack x) ∨
              (∃ m, (Call.Resize 5 : Call Nat Nat) = .EmplaceBack m) ∨
              (∃ i x, (Call.Resize 5 : Call Nat Nat) = .Insert i x)) ∧
            resizeTestVector.Size = resizeTestVector.Capacity))) :=
  ⟨rfl, capacity_across_call valueAssign (Call.Resize 5) resizeTestVector growTestVector rfl⟩

end NVec
